import Mathlib

/-!
# test-go: the build-info reporter

A shallow embedding of `src/test-go/main.go` together with the parts of the Go
standard library the program runs through (`unicode/utf8`, `strconv`, `fmt`,
`strings`, `runtime/debug`), followed by the properties checked against it.

Go strings are byte sequences, so a string is a list of bytes.  Runes handled by
the program are never negative (they come from decoding bytes), so a rune is a
natural number.
-/

namespace TestGo

/-- One byte of a Go string. -/
abbrev Byte := Fin 256

/-- Go `string`: an immutable sequence of bytes, not necessarily valid UTF-8. -/
abbrev GoString := List Byte

/-- Go conversion `byte(x)`: keeps the low eight bits. -/
def byte (x : Nat) : Byte := ⟨x % 256, Nat.mod_lt x (by decide)⟩

/-! ## unicode/utf8 -/

namespace utf8

def RuneError : Nat := 0xFFFD
def RuneSelf : Nat := 0x80
def MaxRune : Nat := 0x10FFFF
def surrogateMin : Nat := 0xD800
def surrogateMax : Nat := 0xDFFF

def tx : Nat := 0x80
def t2 : Nat := 0xC0
def t3 : Nat := 0xE0
def t4 : Nat := 0xF0

def maskx : Nat := 0x3F
def mask2 : Nat := 0x1F
def mask3 : Nat := 0x0F
def mask4 : Nat := 0x07

def rune1Max : Nat := 1 <<< 7 - 1
def rune2Max : Nat := 1 <<< 11 - 1
def rune3Max : Nat := 1 <<< 16 - 1

def locb : Nat := 0x80
def hicb : Nat := 0xBF

def xx : Nat := 0xF1
def as : Nat := 0xF0
def s1 : Nat := 0x02
def s2 : Nat := 0x13
def s3 : Nat := 0x03
def s4 : Nat := 0x23
def s5 : Nat := 0x34
def s6 : Nat := 0x04
def s7 : Nat := 0x44

/-- The table `first`: information about the first byte of a UTF-8 sequence,
written range by range (0x00-0x7F `as`, 0x80-0xC1 `xx`, 0xC2-0xDF `s1`, 0xE0 `s2`,
0xE1-0xEC `s3`, 0xED `s4`, 0xEE-0xEF `s3`, 0xF0 `s5`, 0xF1-0xF3 `s6`, 0xF4 `s7`,
0xF5-0xFF `xx`). -/
def first (b : Nat) : Nat :=
  if b < 0x80 then as
  else if b < 0xC2 then xx
  else if b < 0xE0 then s1
  else if b = 0xE0 then s2
  else if b < 0xED then s3
  else if b = 0xED then s4
  else if b < 0xF0 then s3
  else if b = 0xF0 then s5
  else if b < 0xF4 then s6
  else if b = 0xF4 then s7
  else xx

/-- The table `acceptRanges`: the allowed range `(lo, hi)` of the second byte. -/
def acceptRanges (i : Nat) : Nat × Nat :=
  match i with
  | 0 => (locb, hicb)
  | 1 => (0xA0, hicb)
  | 2 => (locb, 0x9F)
  | 3 => (0x90, hicb)
  | 4 => (locb, 0x8F)
  | _ => (0, 0)

/-- Go `utf8.DecodeRuneInString`: the first rune of `s` and its width in bytes.
In the `x >= as` branch Go selects between `s[0]` and `RuneError` with a mask
built from the low bit of `x`, which is set exactly when `x` is `xx`. -/
def DecodeRuneInString (s : GoString) : Nat × Nat :=
  let n := s.length
  if n < 1 then (RuneError, 0)
  else
    let b0 := (s.getD 0 0).val
    let x := first b0
    if x ≥ as then
      (if x &&& 1 = 1 then RuneError else b0, 1)
    else
      let sz := x &&& 7
      let accept := acceptRanges (x >>> 4)
      if n < sz then (RuneError, 1)
      else
        let b1 := (s.getD 1 0).val
        if b1 < accept.1 ∨ accept.2 < b1 then (RuneError, 1)
        else if sz ≤ 2 then
          ((b0 &&& mask2) <<< 6 ||| (b1 &&& maskx), 2)
        else
          let b2 := (s.getD 2 0).val
          if b2 < locb ∨ hicb < b2 then (RuneError, 1)
          else if sz ≤ 3 then
            ((b0 &&& mask3) <<< 12 ||| (b1 &&& maskx) <<< 6 ||| (b2 &&& maskx), 3)
          else
            let b3 := (s.getD 3 0).val
            if b3 < locb ∨ hicb < b3 then (RuneError, 1)
            else
              ((b0 &&& mask4) <<< 18 ||| (b1 &&& maskx) <<< 12
                ||| (b2 &&& maskx) <<< 6 ||| (b3 &&& maskx), 4)

/-- Go `utf8.ValidRune` on a non-negative rune. -/
def ValidRune (r : Nat) : Bool :=
  if r < surrogateMin then true
  else if surrogateMax < r ∧ r ≤ MaxRune then true
  else false

/-- Go `utf8.AppendRune` (with `appendRuneNonASCII` inlined): the UTF-8 encoding
of `r` appended to `p`. -/
def AppendRune (p : GoString) (r : Nat) : GoString :=
  if r ≤ rune1Max then p ++ [byte r]
  else if r ≤ rune2Max then
    p ++ [byte (t2 ||| (byte (r >>> 6)).val),
          byte (tx ||| ((byte r).val &&& maskx))]
  else if r > MaxRune ∨ (surrogateMin ≤ r ∧ r ≤ surrogateMax) then
    p ++ [byte (t3 ||| (byte (RuneError >>> 12)).val),
          byte (tx ||| ((byte (RuneError >>> 6)).val &&& maskx)),
          byte (tx ||| ((byte RuneError).val &&& maskx))]
  else if r ≤ rune3Max then
    p ++ [byte (t3 ||| (byte (r >>> 12)).val),
          byte (tx ||| ((byte (r >>> 6)).val &&& maskx)),
          byte (tx ||| ((byte r).val &&& maskx))]
  else
    p ++ [byte (t4 ||| (byte (r >>> 18)).val),
          byte (tx ||| ((byte (r >>> 12)).val &&& maskx)),
          byte (tx ||| ((byte (r >>> 6)).val &&& maskx)),
          byte (tx ||| ((byte r).val &&& maskx))]

end utf8

/-! ## strconv -/

/-- The Unicode tables of `strconv` that the repository does not contain: whether
a rune above 0xFF is printable (`isPrint16`, `isNotPrint16`, `isPrint32`,
`isNotPrint32` behind `IsPrint`) and whether a rune is in the `isGraphic` list. -/
structure Tables where
  isPrintWide : Nat → Bool
  isInGraphicList : Nat → Bool

namespace strconv

/-- The constant `lowerhex = "0123456789abcdef"`, indexed. -/
def lowerhex (i : Nat) : Byte :=
  ([0x30, 0x31, 0x32, 0x33, 0x34, 0x35, 0x36, 0x37, 0x38, 0x39,
    0x61, 0x62, 0x63, 0x64, 0x65, 0x66] : List Byte).getD i 0

/-- Go `strconv.IsPrint`: the Latin-1 fast path is code, the rest is table lookup. -/
def IsPrint (T : Tables) (r : Nat) : Bool :=
  if r ≤ 0xFF then
    if 0x20 ≤ r ∧ r ≤ 0x7E then true
    else if 0xA1 ≤ r ∧ r ≤ 0xFF then r != 0xAD
    else false
  else T.isPrintWide r

/-- The hex digits of an escape, `for s := 12; s >= 0; s -= 4 { buf = append(buf,
lowerhex[r>>uint(s)&0xF]) }` after `\u` and the same from 28 after `\U`: the
digits for `s = 4 * k, ..., 4, 0`, so `k = 3` gives four and `k = 7` eight. -/
def hexDigits (r : Nat) : Nat → GoString
  | 0 => [lowerhex (r &&& 0xF)]
  | k + 1 => lowerhex (r >>> (4 * (k + 1)) &&& 0xF) :: hexDigits r k

/-- Go `strconv.appendEscapedRune`. -/
def appendEscapedRune (T : Tables) (buf : GoString) (r : Nat) (quote : Byte)
    (ASCIIonly graphicOnly : Bool) : GoString :=
  if r = quote.val ∨ r = 0x5C then
    buf ++ [0x5C, byte r]
  else if ASCIIonly ∧ r < utf8.RuneSelf ∧ IsPrint T r then
    buf ++ [byte r]
  else if ¬ ASCIIonly ∧ (IsPrint T r ∨ (graphicOnly ∧ T.isInGraphicList r)) then
    utf8.AppendRune buf r
  else if r = 0x07 then buf ++ [0x5C, 0x61]
  else if r = 0x08 then buf ++ [0x5C, 0x62]
  else if r = 0x0C then buf ++ [0x5C, 0x66]
  else if r = 0x0A then buf ++ [0x5C, 0x6E]
  else if r = 0x0D then buf ++ [0x5C, 0x72]
  else if r = 0x09 then buf ++ [0x5C, 0x74]
  else if r = 0x0B then buf ++ [0x5C, 0x76]
  else if r < 0x20 ∨ r = 0x7F then
    buf ++ [0x5C, 0x78, lowerhex ((byte r).val >>> 4), lowerhex ((byte r).val &&& 0xF)]
  else if ¬ utf8.ValidRune r then
    buf ++ [0x5C, 0x75] ++ hexDigits 0xFFFD 3
  else if r < 0x10000 then
    buf ++ [0x5C, 0x75] ++ hexDigits r 3
  else
    buf ++ [0x5C, 0x55] ++ hexDigits r 7

/-- The loop of `appendQuotedWith`, `for width := 0; len(s) > 0; s = s[width:]`:
each round decodes one rune of `s`, appends its rendering to `buf` and drops the
`width` bytes it occupied.  The width is at least one, so the loop terminates. -/
def quoteLoop (T : Tables) (quote : Byte) (ASCIIonly graphicOnly : Bool)
    (buf : GoString) (s : GoString) : GoString :=
  match s with
  | [] => buf
  | b0 :: rest =>
    let rw : Nat × Nat :=
      if b0.val ≥ utf8.RuneSelf then utf8.DecodeRuneInString (b0 :: rest) else (b0.val, 1)
    if rw.2 = 1 ∧ rw.1 = utf8.RuneError then
      quoteLoop T quote ASCIIonly graphicOnly
        (buf ++ [0x5C, 0x78, lowerhex (b0.val >>> 4), lowerhex (b0.val &&& 0xF)])
        ((b0 :: rest).drop rw.2)
    else
      quoteLoop T quote ASCIIonly graphicOnly
        (appendEscapedRune T buf rw.1 quote ASCIIonly graphicOnly) ((b0 :: rest).drop rw.2)
termination_by s.length
decreasing_by
  all_goals simp_wf
  all_goals
    have hw : 1 ≤ (utf8.DecodeRuneInString (b0 :: rest)).2 := by
      unfold utf8.DecodeRuneInString
      simp only [List.length_cons]
      split_ifs <;> omega
    split_ifs <;> simp <;> omega

/-- Go `strconv.appendQuotedWith` (the capacity pre-allocation changes no byte). -/
def appendQuotedWith (T : Tables) (buf : GoString) (s : GoString) (quote : Byte)
    (ASCIIonly graphicOnly : Bool) : GoString :=
  quoteLoop T quote ASCIIonly graphicOnly (buf ++ [quote]) s ++ [quote]

/-- Go `strconv.AppendQuote`, which the `%q` verb of `fmt` calls for a string
operand when neither the `#` nor the `+` flag is given. -/
def AppendQuote (T : Tables) (dst : GoString) (s : GoString) : GoString :=
  appendQuotedWith T dst s 0x22 false false

/-- Go `strconv.Quote`. -/
def Quote (T : Tables) (s : GoString) : GoString :=
  AppendQuote T [] s

end strconv

/-! ## fmt -/

namespace fmt

/-- Go `fmt.Sprintln` for one string operand: the operand, then a newline. -/
def Sprintln (a : GoString) : GoString := a ++ [0x0A]

/-- Go `fmt.Sprintf` restricted to what the program uses: the verbs `%s` (the
operand verbatim) and `%q` (the operand quoted), without flags, on string
operands; every other byte of the format is copied. -/
def Sprintf (T : Tables) : GoString → List GoString → GoString
  | 0x25 :: 0x73 :: rest, a :: args => a ++ Sprintf T rest args
  | 0x25 :: 0x71 :: rest, a :: args => strconv.AppendQuote T [] a ++ Sprintf T rest args
  | c :: rest, args => c :: Sprintf T rest args
  | [], _ => []

end fmt

/-! ## strings -/

namespace strings

/-- Go `strings.IndexByte`: the index of the first `c` in `s`, `none` for -1. -/
def IndexByte : GoString → Byte → Option Nat
  | [], _ => none
  | b :: rest, c => if b = c then some 0 else (IndexByte rest c).map (fun i => i + 1)

/-- Go `strings.Cut` for a separator of one byte: `s[:i], s[i+1:], true` at the
first separator, and `s, "", false` when there is none. -/
def Cut (s : GoString) (sep : Byte) : GoString × GoString × Bool :=
  match IndexByte s sep with
  | some i => (s.take i, s.drop (i + 1), true)
  | none => (s, [], false)

/-- Go `strings.HasPrefix`: `len(s) >= len(prefix) && s[:len(prefix)] == prefix`. -/
def HasPrefix (s pre : GoString) : Bool :=
  decide (s.length ≥ pre.length) && (s.take pre.length == pre)

/-- Go `strings.Split` for a separator of one byte: the pieces of `s` between the
separators, one more than there are separators. -/
def Split : GoString → Byte → List GoString
  | [], _ => [[]]
  | b :: rest, sep =>
    if b = sep then [] :: Split rest sep
    else
      match Split rest sep with
      | [] => [[b]]
      | x :: xs => (b :: x) :: xs

end strings

/-! ## runtime/debug -/

namespace debug

/-- Go `debug.Module`. -/
inductive Module where
  | mk (Path Version Sum : GoString) (Replace : Option Module)

/-- The field `Version` of a module. -/
def Module.Version : Module → GoString
  | .mk _ v _ _ => v

/-- Go `debug.BuildSetting`. -/
structure BuildSetting where
  Key : GoString
  Value : GoString
deriving DecidableEq

/-- Go `debug.BuildInfo`. -/
structure BuildInfo where
  GoVersion : GoString
  Path : GoString
  Main : Module
  Deps : List Module
  Settings : List BuildSetting

/-- The module a `=>` line gives as replacement, put into a module. -/
def Module.setReplace : Module → Module → Module
  | .mk p v s _, r => .mk p v s (some r)

/-- The pointer `last` of `ParseBuildInfo`: nil, the main module, or the
dependency appended last. -/
inductive Last where
  | null
  | main
  | dep
deriving DecidableEq

/-- What `ParseBuildInfo` holds while it reads: the descriptor under
construction and the pointer `last`. -/
structure ParseState where
  bi : BuildInfo
  last : Last

def pathLine : GoString := [0x70, 0x61, 0x74, 0x68, 0x09]
def modLine : GoString := [0x6D, 0x6F, 0x64, 0x09]
def depLine : GoString := [0x64, 0x65, 0x70, 0x09]
def repLine : GoString := [0x3D, 0x3E, 0x09]
def buildLine : GoString := [0x62, 0x75, 0x69, 0x6C, 0x64, 0x09]
def newline : Byte := 0x0A
def tab : Byte := 0x09

/-- The closure `readModuleLine` of `ParseBuildInfo`: two or three columns give a
module, anything else is an error. -/
def readModuleLine (elem : List GoString) : Option Module :=
  match elem with
  | [p, v] => some (.mk p v [] none)
  | [p, v, s] => some (.mk p v s none)
  | _ => none

/-- The assignment `last.Replace = &Module{...}` when `last` points to the
dependency appended last. -/
def setLastReplace (r : Module) : List Module → List Module
  | [] => []
  | [d] => [d.setReplace r]
  | d :: ds => d :: setLastReplace r ds

/-- The `switch` of `ParseBuildInfo` on one line.  How the text of a `build` line
becomes a setting (`strconv.QuotedPrefix`, `strconv.Unquote`, `quoteKey`,
`quoteValue`) is library code of its own and is taken as the parameter
`readBuild`; `none` is a returned error. -/
def parseLine (readBuild : GoString → Option BuildSetting) (line : GoString)
    (st : ParseState) : Option ParseState :=
  if strings.HasPrefix line pathLine then
    some { st with bi := { st.bi with Path := line.drop pathLine.length } }
  else if strings.HasPrefix line modLine then
    match readModuleLine (strings.Split (line.drop modLine.length) tab) with
    | none => none
    | some m => some ⟨{ st.bi with Main := m }, .main⟩
  else if strings.HasPrefix line depLine then
    match readModuleLine (strings.Split (line.drop depLine.length) tab) with
    | none => none
    | some m => some ⟨{ st.bi with Deps := st.bi.Deps ++ [m] }, .dep⟩
  else if strings.HasPrefix line repLine then
    match strings.Split (line.drop repLine.length) tab with
    | [p, v, s] =>
      match st.last with
      | .null => none
      | .main => some ⟨{ st.bi with Main := st.bi.Main.setReplace (.mk p v s none) }, .null⟩
      | .dep => some ⟨{ st.bi with Deps := setLastReplace (.mk p v s none) st.bi.Deps }, .null⟩
    | _ => none
  else if strings.HasPrefix line buildLine then
    match readBuild (line.drop buildLine.length) with
    | none => none
    | some setting => some { st with bi := { st.bi with Settings := st.bi.Settings ++ [setting] } }
  else some st

/-- The loop of `ParseBuildInfo`, `for len(data) > 0 { line, data, ok =
strings.Cut(data, newline); if !ok { break }; switch ... }`. -/
def parseLoop (readBuild : GoString → Option BuildSetting) (data : GoString)
    (st : ParseState) : Option ParseState :=
  if data.length > 0 then
    match h : strings.Cut data newline with
    | (line, rest, true) =>
      match parseLine readBuild line st with
      | none => none
      | some st1 => parseLoop readBuild rest st1
    | (_, _, false) => some st
  else some st
termination_by data.length
decreasing_by
  simp_wf
  unfold strings.Cut at h
  split at h
  · simp only [Prod.mk.injEq] at h
    rw [← h.2.1, List.length_drop]
    omega
  · simp at h

/-- Go `debug.ParseBuildInfo`: `none` is a returned error. -/
def ParseBuildInfo (readBuild : GoString → Option BuildSetting) (data : GoString) :
    Option BuildInfo :=
  (parseLoop readBuild data ⟨⟨[], [], .mk [] [] [] none, [], []⟩, .null⟩).map (fun st => st.bi)

/-- Go `debug.ReadBuildInfo`, with what it reads from the running binary made
arguments: `modinfo` is the string `modinfo()` returns and `runtimeVersion` is
`runtime.Version()`.  `none` stands for `ok == false`. -/
def ReadBuildInfo (readBuild : GoString → Option BuildSetting)
    (runtimeVersion modinfo : GoString) : Option BuildInfo :=
  if modinfo.length < 32 then none
  else
    match ParseBuildInfo readBuild ((modinfo.take (modinfo.length - 16)).drop 16) with
    | none => none
    | some bi => some { bi with GoVersion := runtimeVersion }

end debug

/-! ## package main -/

open debug

/-- The value a panic carries: the string given to `panic`, or the run-time error
of a slice expression `s[:hi]` with `hi > len(s)`. -/
inductive PanicValue where
  | str (msg : GoString)
  | sliceBounds (hi len : Nat)
deriving DecidableEq

/-- How the process ends: `main` returns, or a panic unwinds it. -/
inductive Termination where
  | returned
  | panicked (v : PanicValue)
deriving DecidableEq

/-- The exit status of the process: 0 when `main` returns, 2 after a panic. -/
def Termination.exitStatus : Termination → Nat
  | .returned => 0
  | .panicked _ => 2

/-- What the run has done, recorded for reasoning only: a setting bound by the
`range` loop, or a key on which the slice expression `Key[:3]` was evaluated. -/
inductive Event where
  | visit (setting : BuildSetting)
  | slice (key : GoString)
deriving DecidableEq

/-- The observable state of the process: the bytes written to standard output so
far, and the record of events. -/
structure Proc where
  stdout : GoString
  events : List Event
deriving DecidableEq

/-- The process at start: nothing written. -/
def Proc.start : Proc := ⟨[], []⟩

/-- Writing bytes to standard output. -/
def Proc.write (p : Proc) (bs : GoString) : Proc := { p with stdout := p.stdout ++ bs }

/-- Recording an event. -/
def Proc.record (p : Proc) (e : Event) : Proc := { p with events := p.events ++ [e] }

/-- The string literal `"vcs"`. -/
def vcs : GoString := [0x76, 0x63, 0x73]

/-- The string literal `"failed to read build info"`. -/
def failedToReadBuildInfo : GoString :=
  [0x66, 0x61, 0x69, 0x6C, 0x65, 0x64, 0x20, 0x74, 0x6F, 0x20, 0x72, 0x65, 0x61, 0x64,
   0x20, 0x62, 0x75, 0x69, 0x6C, 0x64, 0x20, 0x69, 0x6E, 0x66, 0x6F]

/-- The format literal `"%s = %q\n"`. -/
def lineFormat : GoString := [0x25, 0x73, 0x20, 0x3D, 0x20, 0x25, 0x71, 0x0A]

/-- The slice expression `s[:hi]`: panics when `hi` exceeds the length. -/
def sliceTo (s : GoString) (hi : Nat) : Except PanicValue GoString :=
  if hi ≤ s.length then .ok (s.take hi) else .error (.sliceBounds hi s.length)

/-- The condition `len(setting.Key) >= 3 && setting.Key[:3] == "vcs"`: the right
operand of `&&` is evaluated only when the left one is true. -/
def keyCond (key : GoString) (p : Proc) : Except PanicValue Bool × Proc :=
  if key.length ≥ 3 then
    match sliceTo key 3 with
    | .ok head => (.ok (head == vcs), p.record (.slice key))
    | .error v => (.error v, p.record (.slice key))
  else (.ok false, p)

/-- The loop `for _, setting := range bi.Settings { if ... { fmt.Printf(...) } }`:
the panic that stopped it, if any, and the process state it leaves. -/
def rangeSettings (T : Tables) : List BuildSetting → Proc → Option PanicValue × Proc
  | [], p => (none, p)
  | setting :: rest, p =>
    match keyCond setting.Key (p.record (.visit setting)) with
    | (.error v, p1) => (some v, p1)
    | (.ok true, p1) =>
      rangeSettings T rest (p1.write (fmt.Sprintf T lineFormat [setting.Key, setting.Value]))
    | (.ok false, p1) => rangeSettings T rest p1

/-- The function `main`.  The argument is what `debug.ReadBuildInfo()` returns:
`none` for `ok == false`, `some bi` for `ok == true`. -/
def main (T : Tables) (read : Option BuildInfo) : Termination × Proc :=
  match read with
  | none => (.panicked (.str failedToReadBuildInfo), Proc.start)
  | some bi =>
    match rangeSettings T bi.Settings (Proc.start.write (fmt.Sprintln bi.Main.Version)) with
    | (some v, p) => (.panicked v, p)
    | (none, p) => (.returned, p)

/-! ## Notions the properties are stated with -/

/-- Whether `s` begins with the bytes of `p`. -/
def startsWith : GoString → GoString → Bool
  | [], _ => true
  | _ :: _, [] => false
  | a :: p, b :: s => a == b && startsWith p s

/-- The line the specification describes for a setting: the key, ` = `, the
quoted value, a newline. -/
def renderLine (T : Tables) (setting : BuildSetting) : GoString :=
  setting.Key ++ [0x20, 0x3D, 0x20] ++ strconv.Quote T setting.Value ++ [0x0A]

/-- The text before the first newline character. -/
def firstLine (out : GoString) : GoString := out.takeWhile (fun b => b != 0x0A)

/-- The events one round of the loop leaves for a setting. -/
def roundEvents (setting : BuildSetting) : List Event :=
  Event.visit setting :: (if 3 ≤ setting.Key.length then [Event.slice setting.Key] else [])

/-- The settings the loop visited, in the order of the visits. -/
def visited : List Event → List BuildSetting
  | [] => []
  | .visit s :: es => s :: visited es
  | .slice _ :: es => visited es

/-- The keys on which the slice expression was evaluated. -/
def sliced : List Event → List GoString
  | [] => []
  | .visit _ :: es => sliced es
  | .slice k :: es => k :: sliced es

/-! ## Sample descriptors -/

/-- A module whose only interesting field is its version. -/
def moduleOf (version : GoString) : Module := .mk [] version [] none

/-- A descriptor with the given version and settings and nothing else. -/
def infoOf (version : GoString) (settings : List BuildSetting) : BuildInfo :=
  ⟨[], [], moduleOf version, [], settings⟩

/-- The descriptor `bi` with its settings list replaced. -/
def withSettings (bi : BuildInfo) (settings : List BuildSetting) : BuildInfo :=
  { bi with Settings := settings }

/-- Tables under which no rune above 0xFF is printable or graphic; the sample
runs below only print ASCII, which never reaches the tables. -/
def sampleTables : Tables := ⟨fun _ => false, fun _ => false⟩

/-- The key `vcs.revision`. -/
def keyVcsRevision : GoString :=
  [0x76, 0x63, 0x73, 0x2E, 0x72, 0x65, 0x76, 0x69, 0x73, 0x69, 0x6F, 0x6E]

/-- The key `nonvcs.tool`. -/
def keyNonvcsTool : GoString :=
  [0x6E, 0x6F, 0x6E, 0x76, 0x63, 0x73, 0x2E, 0x74, 0x6F, 0x6F, 0x6C]

/-- The value `abc123`. -/
def valueAbc123 : GoString := [0x61, 0x62, 0x63, 0x31, 0x32, 0x33]

/-- The version `v1.2.3`. -/
def versionV123 : GoString := [0x76, 0x31, 0x2E, 0x32, 0x2E, 0x33]


/-- Arithmetic form of decoding. -/
def decodeArith : GoString → Nat × Nat
  | [] => (utf8.RuneError, 0)
  | b0 :: rest =>
    if b0.val < 0x80 then (b0.val, 1)
    else if b0.val < 0xC2 then (utf8.RuneError, 1)
    else if b0.val < 0xE0 then
      match rest with
      | b1 :: _ =>
        if 0x80 ≤ b1.val ∧ b1.val ≤ 0xBF then (b0.val % 32 * 64 + b1.val % 64, 2)
        else (utf8.RuneError, 1)
      | [] => (utf8.RuneError, 1)
    else if b0.val < 0xF0 then
      match rest with
      | b1 :: b2 :: _ =>
        if (if b0.val = 0xE0 then 0xA0 else 0x80) ≤ b1.val ∧
            b1.val ≤ (if b0.val = 0xED then 0x9F else 0xBF) ∧
            0x80 ≤ b2.val ∧ b2.val ≤ 0xBF then
          (b0.val % 16 * 4096 + b1.val % 64 * 64 + b2.val % 64, 3)
        else (utf8.RuneError, 1)
      | _ => (utf8.RuneError, 1)
    else if b0.val < 0xF5 then
      match rest with
      | b1 :: b2 :: b3 :: _ =>
        if (if b0.val = 0xF0 then 0x90 else 0x80) ≤ b1.val ∧
            b1.val ≤ (if b0.val = 0xF4 then 0x8F else 0xBF) ∧
            0x80 ≤ b2.val ∧ b2.val ≤ 0xBF ∧ 0x80 ≤ b3.val ∧ b3.val ≤ 0xBF then
          (b0.val % 8 * 262144 + b1.val % 64 * 4096 + b2.val % 64 * 64 + b3.val % 64, 4)
        else (utf8.RuneError, 1)
      | _ => (utf8.RuneError, 1)
    else (utf8.RuneError, 1)

/-- The decoder with the table entry `x` of the first byte made a parameter. -/
def decodeWith (x : Nat) (s : GoString) : Nat × Nat :=
  let n := s.length
  let b0 := (s.getD 0 0).val
  if x ≥ utf8.as then
    (if x &&& 1 = 1 then utf8.RuneError else b0, 1)
  else
    let sz := x &&& 7
    let accept := utf8.acceptRanges (x >>> 4)
    if n < sz then (utf8.RuneError, 1)
    else
      let b1 := (s.getD 1 0).val
      if b1 < accept.1 ∨ accept.2 < b1 then (utf8.RuneError, 1)
      else if sz ≤ 2 then
        ((b0 &&& utf8.mask2) <<< 6 ||| (b1 &&& utf8.maskx), 2)
      else
        let b2 := (s.getD 2 0).val
        if b2 < utf8.locb ∨ utf8.hicb < b2 then (utf8.RuneError, 1)
        else if sz ≤ 3 then
          ((b0 &&& utf8.mask3) <<< 12 ||| (b1 &&& utf8.maskx) <<< 6 ||| (b2 &&& utf8.maskx), 3)
        else
          let b3 := (s.getD 3 0).val
          if b3 < utf8.locb ∨ utf8.hicb < b3 then (utf8.RuneError, 1)
          else
            ((b0 &&& utf8.mask4) <<< 18 ||| (b1 &&& utf8.maskx) <<< 12
              ||| (b2 &&& utf8.maskx) <<< 6 ||| (b3 &&& utf8.maskx), 4)

/-- Arithmetic form of encoding. -/
def encodeArith (r : Nat) : GoString :=
  if r ≤ 127 then [byte r]
  else if r ≤ 2047 then [byte (192 + r / 64), byte (128 + r % 64)]
  else if r > 0x10FFFF ∨ (0xD800 ≤ r ∧ r ≤ 0xDFFF) then [0xEF, 0xBF, 0xBD]
  else if r ≤ 65535 then
    [byte (224 + r / 4096), byte (128 + r / 64 % 64), byte (128 + r % 64)]
  else
    [byte (240 + r / 262144), byte (128 + r / 4096 % 64), byte (128 + r / 64 % 64),
      byte (128 + r % 64)]

/-- The rune and the width one round of the quoting loop works with, for a string
that starts with `b0`. -/
def headRune (b0 : Byte) (rest : GoString) : Nat × Nat :=
  if b0.val ≥ utf8.RuneSelf then utf8.DecodeRuneInString (b0 :: rest) else (b0.val, 1)

/-- The bytes one round of the quoting loop appends under `Quote`. -/
def roundBytes (T : Tables) (b0 : Byte) (rest : GoString) : GoString :=
  if (headRune b0 rest).2 = 1 ∧ (headRune b0 rest).1 = utf8.RuneError then
    [0x5C, 0x78, strconv.lowerhex (b0.val >>> 4), strconv.lowerhex (b0.val &&& 0xF)]
  else strconv.appendEscapedRune T [] (headRune b0 rest).1 0x22 false false

/-- What `Quote` puts between the two quote characters. -/
def quoteBody (T : Tables) (s : GoString) : GoString :=
  strconv.quoteLoop T 0x22 false false [] s

/-- A printable ASCII character other than the double quote and the backslash. -/
def plainASCII (b : Byte) : Bool :=
  decide (0x20 ≤ b.val) && decide (b.val ≤ 0x7E) && (b != 0x22) && (b != 0x5C)

/-- The key `vcs`, newline, `x`. -/
def keyVcsNewlineX : GoString := [0x76, 0x63, 0x73, 0x0A, 0x78]

/-- The version `a`, newline, `b`. -/
def versionWithNewline : GoString := [0x61, 0x0A, 0x62]

/-- The descriptor as the specification sees it: the version and the settings. -/
def descriptor (bi : BuildInfo) : GoString × List BuildSetting := (bi.Main.Version, bi.Settings)

/-- The letter `Quote` writes after a backslash for a byte that has a short
escape: the double quote, the backslash, and the control characters with the
escapes `\a \b \f \n \r \t \v`. -/
def simpleEscape (b : Byte) : Option Byte :=
  if b = 0x22 then some 0x22
  else if b = 0x5C then some 0x5C
  else if b = 0x07 then some 0x61
  else if b = 0x08 then some 0x62
  else if b = 0x0C then some 0x66
  else if b = 0x0A then some 0x6E
  else if b = 0x0D then some 0x72
  else if b = 0x09 then some 0x74
  else if b = 0x0B then some 0x76
  else none

/-- Go `[]rune(s)`, the characters a `range` loop over `s` yields: the string
decoded rune by rune, an invalid byte giving U+FFFD. -/
def runes (s : GoString) : List Nat :=
  match s with
  | [] => []
  | b0 :: rest =>
    (utf8.DecodeRuneInString (b0 :: rest)).1 ::
      runes ((b0 :: rest).drop (utf8.DecodeRuneInString (b0 :: rest)).2)
termination_by s.length
decreasing_by
  simp_wf
  have hw : 1 ≤ (utf8.DecodeRuneInString (b0 :: rest)).2 := by
    unfold utf8.DecodeRuneInString
    simp only [List.length_cons]
    split_ifs <;> omega
  omega

/-- A control character: U+0000 to U+001F and U+007F to U+009F. -/
def isControl (r : Nat) : Bool := decide (r < 0x20) || (decide (0x7F ≤ r) && decide (r ≤ 0x9F))

/-- Whether a text between two double quotes is escaped throughout, read from the
left: a backslash takes the character after it with it, and outside such a pair
there is no double quote and no backslash. -/
def wellEscaped : GoString → Bool
  | [] => true
  | b :: rest =>
    if b = 0x5C then
      match rest with
      | [] => false
      | _ :: rest2 => wellEscaped rest2
    else b != 0x22 && wellEscaped rest

/-- The value of a hexadecimal digit. -/
def hexVal (b : Byte) : Option Nat :=
  if 0x30 ≤ b.val ∧ b.val ≤ 0x39 then some (b.val - 0x30)
  else if 0x61 ≤ b.val ∧ b.val ≤ 0x66 then some (b.val - 0x61 + 10)
  else if 0x41 ≤ b.val ∧ b.val ≤ 0x46 then some (b.val - 0x41 + 10)
  else none

/-- The number a sequence of hexadecimal digits denotes, continuing from `acc`. -/
def hexNum (acc : Nat) : GoString → Option Nat
  | [] => some acc
  | b :: rest => (hexVal b).bind (fun d => hexNum (acc * 16 + d) rest)

/-- The byte a short escape letter stands for. -/
def simpleUnescape (e : Byte) : Option Byte :=
  if e = 0x22 then some 0x22
  else if e = 0x5C then some 0x5C
  else if e = 0x61 then some 0x07
  else if e = 0x62 then some 0x08
  else if e = 0x66 then some 0x0C
  else if e = 0x6E then some 0x0A
  else if e = 0x72 then some 0x0D
  else if e = 0x74 then some 0x09
  else if e = 0x76 then some 0x0B
  else none

/-- One escape, read after its backslash: the bytes it stands for and the number
of bytes of the text it takes.  `xHH` is the byte `HH`, `uHHHH` and `UHHHHHHHH`
are the UTF-8 encoding of the rune, a short escape letter is its byte. -/
def unescape (s : GoString) : Option (GoString × Nat) :=
  match s with
  | [] => none
  | e :: digits =>
    if e = 0x78 then
      if digits.length < 2 then none
      else (hexNum 0 (digits.take 2)).map (fun n => ([byte n], 3))
    else if e = 0x75 then
      if digits.length < 4 then none
      else (hexNum 0 (digits.take 4)).map (fun n => (utf8.AppendRune [] n, 5))
    else if e = 0x55 then
      if digits.length < 8 then none
      else (hexNum 0 (digits.take 8)).map (fun n => (utf8.AppendRune [] n, 9))
    else (simpleUnescape e).map (fun c => ([c], 1))

/-- Reading back the text between the double quotes of a quoted string: a
backslash starts an escape, every other byte stands for itself, and a double
quote outside an escape is an error. -/
def unquoteBody (s : GoString) : Option GoString :=
  match s with
  | [] => some []
  | b :: rest =>
    if b = 0x5C then
      match unescape rest with
      | none => none
      | some (bs, k) => (unquoteBody (rest.drop k)).map (fun t => bs ++ t)
    else if b = 0x22 then none
    else (unquoteBody rest).map (fun t => b :: t)
termination_by s.length
decreasing_by
  all_goals simp_wf
  all_goals omega

/-- Reading back a quoted string: the text between its first and its last
character, which are double quotes, unescaped. -/
def unquote (s : GoString) : Option GoString :=
  match s with
  | [] => none
  | q :: t => if q = 0x22 ∧ t.getLast? = some 0x22 then unquoteBody t.dropLast else none

/-- The newline-terminated lines of a text, each without its newline, `cur` being
the part of the current line already read; bytes after the last newline are not
a line. -/
def splitLines (cur : GoString) : GoString → List GoString
  | [] => []
  | b :: rest => if b = 0x0A then cur :: splitLines [] rest else splitLines (cur ++ [b]) rest

/-- The newline-terminated lines of a text. -/
def lines (out : GoString) : List GoString := splitLines [] out

/-- The text of the line printed for a setting, without its newline. -/
def lineText (T : Tables) (setting : BuildSetting) : GoString :=
  setting.Key ++ [0x20, 0x3D, 0x20] ++ strconv.Quote T setting.Value

/-- A reader of `build` lines for the sample runs: an unquoted `key=value`. -/
def sampleReadBuild (kv : GoString) : Option BuildSetting :=
  match strings.Cut kv 0x3D with
  | (key, value, true) => some ⟨key, value⟩
  | (_, _, false) => none

/-- The build-info text `mod m v1.2.3`, `build vcs.revision=abc123`, columns
separated by tabs and every line ended by a newline. -/
def sampleText : GoString :=
  debug.modLine ++ [0x6D, 0x09] ++ versionV123 ++ [0x0A] ++
    (debug.buildLine ++ keyVcsRevision ++ [0x3D] ++ valueAbc123 ++ [0x0A])

/-- The sample text as `modinfo()` returns it, between two marks of 16 bytes. -/
def sampleModinfo : GoString := List.replicate 16 0 ++ sampleText ++ List.replicate 16 0

/-- The Go version `go1.22`. -/
def sampleGoVersion : GoString := [0x67, 0x6F, 0x31, 0x2E, 0x32, 0x32]
theorem and_maskx (x : Nat) : x &&& utf8.maskx = x % 64 := Nat.and_pow_two_sub_one_eq_mod x 6

theorem and_mask2 (x : Nat) : x &&& utf8.mask2 = x % 32 := Nat.and_pow_two_sub_one_eq_mod x 5

theorem and_mask3 (x : Nat) : x &&& utf8.mask3 = x % 16 := Nat.and_pow_two_sub_one_eq_mod x 4

theorem and_mask4 (x : Nat) : x &&& utf8.mask4 = x % 8 := Nat.and_pow_two_sub_one_eq_mod x 3

theorem and_0xF (x : Nat) : x &&& 0xF = x % 16 := Nat.and_pow_two_sub_one_eq_mod x 4

theorem shl_or (a b k : Nat) (h : b < 2 ^ k) : a <<< k ||| b = a * 2 ^ k + b := by
  rw [Nat.shiftLeft_eq, Nat.mul_comm, Nat.mul_add_lt_is_or h]

theorem bits2 (a b : Nat) : (a &&& utf8.mask2) <<< 6 ||| (b &&& utf8.maskx) = a % 32 * 64 + b % 64 := by
  rw [and_mask2, and_maskx, shl_or _ _ 6 (by omega)]
  omega

theorem bits3 (a b c : Nat) :
    (a &&& utf8.mask3) <<< 12 ||| (b &&& utf8.maskx) <<< 6 ||| (c &&& utf8.maskx)
      = a % 16 * 4096 + b % 64 * 64 + c % 64 := by
  rw [and_mask3, and_maskx, and_maskx, Nat.shiftLeft_eq (b % 64) 6]
  rw [shl_or _ _ 12 (by omega)]
  have e : a % 16 * 2 ^ 12 + b % 64 * 2 ^ 6 = (a % 16 * 64 + b % 64) <<< 6 := by
    rw [Nat.shiftLeft_eq]; omega
  rw [e, shl_or _ _ 6 (by omega)]
  omega

theorem bits4 (a b c d : Nat) :
    (a &&& utf8.mask4) <<< 18 ||| (b &&& utf8.maskx) <<< 12 ||| (c &&& utf8.maskx) <<< 6
        ||| (d &&& utf8.maskx)
      = a % 8 * 262144 + b % 64 * 4096 + c % 64 * 64 + d % 64 := by
  rw [and_mask4, and_maskx, and_maskx, and_maskx, Nat.shiftLeft_eq (b % 64) 12,
    Nat.shiftLeft_eq (c % 64) 6]
  rw [shl_or _ _ 18 (by omega)]
  have e : a % 8 * 2 ^ 18 + b % 64 * 2 ^ 12 = (a % 8 * 64 + b % 64) <<< 12 := by
    rw [Nat.shiftLeft_eq]; omega
  rw [e, shl_or _ _ 12 (by omega)]
  have e2 : (a % 8 * 64 + b % 64) * 2 ^ 12 + c % 64 * 2 ^ 6
      = ((a % 8 * 64 + b % 64) * 64 + c % 64) <<< 6 := by
    rw [Nat.shiftLeft_eq]; omega
  rw [e2, shl_or _ _ 6 (by omega)]
  omega

theorem decode_with (b0 : Byte) (rest : GoString) :
    utf8.DecodeRuneInString (b0 :: rest) = decodeWith (utf8.first b0.val) (b0 :: rest) := by
  unfold utf8.DecodeRuneInString decodeWith
  simp

theorem decodeWith_as (s : GoString) : decodeWith 0xF0 s = ((s.getD 0 0).val, 1) := by
  unfold decodeWith
  have e : (0xF0 : Nat) &&& 1 = 0 := by decide
  simp [utf8.as, e]

theorem decodeWith_xx (s : GoString) : decodeWith 0xF1 s = (utf8.RuneError, 1) := by
  unfold decodeWith
  have e : (0xF1 : Nat) &&& 1 = 1 := by decide
  simp [utf8.as, e]

theorem decodeWith_2 (b0 : Byte) (rest : GoString) :
    decodeWith 0x02 (b0 :: rest) =
      match rest with
      | b1 :: _ =>
        if 0x80 ≤ b1.val ∧ b1.val ≤ 0xBF then (b0.val % 32 * 64 + b1.val % 64, 2)
        else (utf8.RuneError, 1)
      | [] => (utf8.RuneError, 1) := by
  unfold decodeWith
  have e1 : (0x02 : Nat) &&& 7 = 2 := by decide
  have e2 : (0x02 : Nat) >>> 4 = 0 := by decide
  simp only [e1, e2, utf8.as, utf8.acceptRanges, utf8.locb, utf8.hicb, bits2]
  rcases rest with _ | ⟨b1, t⟩
  · simp
  · simp only [List.length_cons, List.getD_cons_zero, List.getD_cons_succ]
    split_ifs <;> first | rfl | omega

theorem decodeWith_3 (x lo hi : Nat) (hx : x < 0xF0) (hsz : x &&& 7 = 3)
    (hacc : utf8.acceptRanges (x >>> 4) = (lo, hi)) (b0 : Byte) (rest : GoString) :
    decodeWith x (b0 :: rest) =
      match rest with
      | b1 :: b2 :: _ =>
        if lo ≤ b1.val ∧ b1.val ≤ hi ∧ 0x80 ≤ b2.val ∧ b2.val ≤ 0xBF then
          (b0.val % 16 * 4096 + b1.val % 64 * 64 + b2.val % 64, 3)
        else (utf8.RuneError, 1)
      | _ => (utf8.RuneError, 1) := by
  unfold decodeWith
  have hx2 : ¬ x ≥ utf8.as := by unfold utf8.as; omega
  simp only [hsz, hacc, hx2, if_false, utf8.locb, utf8.hicb, bits3]
  rcases rest with _ | ⟨b1, _ | ⟨b2, t⟩⟩
  · simp
  · simp
  · simp only [List.length_cons, List.getD_cons_zero, List.getD_cons_succ]
    split_ifs <;> first | rfl | omega

theorem decodeWith_4 (x lo hi : Nat) (hx : x < 0xF0) (hsz : x &&& 7 = 4)
    (hacc : utf8.acceptRanges (x >>> 4) = (lo, hi)) (b0 : Byte) (rest : GoString) :
    decodeWith x (b0 :: rest) =
      match rest with
      | b1 :: b2 :: b3 :: _ =>
        if lo ≤ b1.val ∧ b1.val ≤ hi ∧ 0x80 ≤ b2.val ∧ b2.val ≤ 0xBF ∧
            0x80 ≤ b3.val ∧ b3.val ≤ 0xBF then
          (b0.val % 8 * 262144 + b1.val % 64 * 4096 + b2.val % 64 * 64 + b3.val % 64, 4)
        else (utf8.RuneError, 1)
      | _ => (utf8.RuneError, 1) := by
  unfold decodeWith
  have hx2 : ¬ x ≥ utf8.as := by unfold utf8.as; omega
  simp only [hsz, hacc, hx2, if_false, utf8.locb, utf8.hicb, bits4]
  rcases rest with _ | ⟨b1, _ | ⟨b2, _ | ⟨b3, t⟩⟩⟩
  · simp
  · simp
  · simp
  · simp only [List.length_cons, List.getD_cons_zero, List.getD_cons_succ]
    split_ifs <;> first | rfl | omega

theorem first_as (b : Nat) (h : b < 0x80) : utf8.first b = 0xF0 := by
  unfold utf8.first; split_ifs <;> first | rfl | omega

theorem first_xx (b : Nat) (h : 0x80 ≤ b ∧ b < 0xC2 ∨ 0xF5 ≤ b) : utf8.first b = 0xF1 := by
  unfold utf8.first; split_ifs <;> first | rfl | omega

theorem first_s1 (b : Nat) (h : 0xC2 ≤ b ∧ b < 0xE0) : utf8.first b = 0x02 := by
  unfold utf8.first; split_ifs <;> first | rfl | omega

theorem first_s3 (b : Nat) (h : 0xE1 ≤ b ∧ b < 0xED ∨ b = 0xEE ∨ b = 0xEF) :
    utf8.first b = 0x03 := by
  unfold utf8.first; split_ifs <;> first | rfl | omega

theorem first_s6 (b : Nat) (h : 0xF1 ≤ b ∧ b < 0xF4) : utf8.first b = 0x04 := by
  unfold utf8.first; split_ifs <;> first | rfl | omega

theorem decode_eq (s : GoString) : utf8.DecodeRuneInString s = decodeArith s := by
  rcases s with _ | ⟨b0, rest⟩
  · rfl
  rw [decode_with]
  unfold decodeArith
  by_cases h1 : b0.val < 0x80
  · rw [first_as _ h1, decodeWith_as]
    simp [h1]
  by_cases h2 : b0.val < 0xC2
  · rw [first_xx _ (Or.inl ⟨by omega, h2⟩), decodeWith_xx]
    simp [h1, h2]
  by_cases h3 : b0.val < 0xE0
  · rw [first_s1 _ ⟨by omega, h3⟩, decodeWith_2]
    simp only [h1, h2, h3, if_true, if_false]
    rfl
  by_cases h4 : b0.val < 0xF0
  · simp only [h1, h2, h3, h4, if_true, if_false]
    by_cases e0 : b0.val = 0xE0
    · have hf : utf8.first b0.val = 0x13 := by rw [e0]; rfl
      have eD : ¬ b0.val = 0xED := by omega
      rw [hf, decodeWith_3 0x13 0xA0 0xBF (by omega) (by decide) (by decide)]
      simp only [if_pos e0, if_neg eD]
      rfl
    by_cases eD : b0.val = 0xED
    · have hf : utf8.first b0.val = 0x23 := by rw [eD]; rfl
      rw [hf, decodeWith_3 0x23 0x80 0x9F (by omega) (by decide) (by decide)]
      simp only [if_neg e0, if_pos eD]
      rfl
    · rw [first_s3 _ (by omega), decodeWith_3 0x03 0x80 0xBF (by omega) (by decide) (by decide)]
      simp only [if_neg e0, if_neg eD]
      rfl
  by_cases h5 : b0.val < 0xF5
  · simp only [h1, h2, h3, h4, h5, if_true, if_false]
    by_cases e0 : b0.val = 0xF0
    · have hf : utf8.first b0.val = 0x34 := by rw [e0]; rfl
      have e4 : ¬ b0.val = 0xF4 := by omega
      rw [hf, decodeWith_4 0x34 0x90 0xBF (by omega) (by decide) (by decide)]
      simp only [if_pos e0, if_neg e4]
      rfl
    by_cases e4 : b0.val = 0xF4
    · have hf : utf8.first b0.val = 0x44 := by rw [e4]; rfl
      rw [hf, decodeWith_4 0x44 0x80 0x8F (by omega) (by decide) (by decide)]
      simp only [if_neg e0, if_pos e4]
      rfl
    · rw [first_s6 _ (by omega), decodeWith_4 0x04 0x80 0xBF (by omega) (by decide) (by decide)]
      simp only [if_neg e0, if_neg e4]
      rfl
  · rw [first_xx _ (Or.inr (by omega)), decodeWith_xx]
    simp only [h1, h2, h3, h4, h5, if_false]

theorem or_add (a k y : Nat) (h : y < 2 ^ k) : 2 ^ k * a ||| y = 2 ^ k * a + y :=
  (Nat.mul_add_lt_is_or h a).symm

theorem byte_val (b : Byte) : byte b.val = b := by
  apply Fin.ext
  simp [byte, Nat.mod_eq_of_lt b.isLt]

theorem byte_of_eq (x : Nat) (b : Byte) (h : x = b.val) : byte x = b := by
  rw [h, byte_val]

theorem tx_or (x : Nat) : utf8.tx ||| ((byte x).val &&& utf8.maskx) = 128 + x % 64 := by
  have h := or_add 1 7 (x % 64) (by omega)
  have e : (byte x).val &&& utf8.maskx = x % 64 := by
    rw [and_maskx]; simp only [byte]; omega
  rw [e]
  simpa [utf8.tx] using h

theorem t2_or (x : Nat) (hx : x < 32) : utf8.t2 ||| (byte x).val = 192 + x := by
  have h := or_add 3 6 x (by omega)
  have e : (byte x).val = x := by simp only [byte]; omega
  rw [e]
  simpa [utf8.t2] using h

theorem t3_or (x : Nat) (hx : x < 16) : utf8.t3 ||| (byte x).val = 224 + x := by
  have h := or_add 7 5 x (by omega)
  have e : (byte x).val = x := by simp only [byte]; omega
  rw [e]
  simpa [utf8.t3] using h

theorem t4_or (x : Nat) (hx : x < 8) : utf8.t4 ||| (byte x).val = 240 + x := by
  have h := or_add 15 4 x (by omega)
  have e : (byte x).val = x := by simp only [byte]; omega
  rw [e]
  simpa [utf8.t4] using h

theorem appendRune_eq (p : GoString) (r : Nat) : utf8.AppendRune p r = p ++ encodeArith r := by
  unfold utf8.AppendRune encodeArith
  simp only [utf8.rune1Max, utf8.rune2Max, utf8.rune3Max, utf8.MaxRune, utf8.surrogateMin,
    utf8.surrogateMax, utf8.RuneError, tx_or, Nat.shiftRight_eq_div_pow]
  by_cases h1 : r ≤ 127
  · simp [h1]
  by_cases h2 : r ≤ 2047
  · have : r / 64 < 32 := by omega
    simp [h1, h2, t2_or _ this]
  by_cases h3 : r > 0x10FFFF ∨ (0xD800 ≤ r ∧ r ≤ 0xDFFF)
  · have e1 : byte (utf8.t3 ||| (byte (65533 / 2 ^ 12)).val) = 0xEF := by decide
    have e2 : byte (128 + 65533 / 2 ^ 6 % 64) = 0xBF := by decide
    have e3 : byte (128 + 65533 % 64) = 0xBD := by decide
    rw [e1, e2, e3]
    simp [h1, h2, h3]
  by_cases h4 : r ≤ 65535
  · have : r / 4096 < 16 := by omega
    simp [h1, h2, h3, h4, t3_or _ this]
  · have h5 : r / 262144 < 8 := by omega
    simp [h1, h2, h3, h4, t4_or _ h5]

theorem encode2 (b0 b1 : Byte) (h0 : 0xC2 ≤ b0.val ∧ b0.val < 0xE0)
    (h1 : 0x80 ≤ b1.val ∧ b1.val ≤ 0xBF) :
    encodeArith (b0.val % 32 * 64 + b1.val % 64) = [b0, b1] := by
  unfold encodeArith
  rw [if_neg (by omega), if_pos (by omega)]
  rw [byte_of_eq _ b0 (by omega), byte_of_eq _ b1 (by omega)]

theorem encode3 (b0 b1 b2 : Byte) (h0 : 0xE0 ≤ b0.val ∧ b0.val < 0xF0)
    (hlo : (if b0.val = 0xE0 then 0xA0 else 0x80) ≤ b1.val)
    (hhi : b1.val ≤ (if b0.val = 0xED then 0x9F else 0xBF))
    (h2 : 0x80 ≤ b2.val ∧ b2.val ≤ 0xBF) :
    encodeArith (b0.val % 16 * 4096 + b1.val % 64 * 64 + b2.val % 64) = [b0, b1, b2] := by
  have hb1 : 0x80 ≤ b1.val ∧ b1.val ≤ 0xBF := by split_ifs at hlo hhi <;> omega
  have hr1 : 2048 ≤ b0.val % 16 * 4096 + b1.val % 64 * 64 + b2.val % 64 := by
    split_ifs at hlo hhi <;> omega
  have hr2 : ¬ (0xD800 ≤ b0.val % 16 * 4096 + b1.val % 64 * 64 + b2.val % 64 ∧
      b0.val % 16 * 4096 + b1.val % 64 * 64 + b2.val % 64 ≤ 0xDFFF) := by
    split_ifs at hlo hhi <;> omega
  unfold encodeArith
  rw [if_neg (by omega), if_neg (by omega), if_neg (by omega), if_pos (by omega)]
  rw [byte_of_eq _ b0 (by omega), byte_of_eq _ b1 (by omega), byte_of_eq _ b2 (by omega)]

theorem encode4 (b0 b1 b2 b3 : Byte) (h0 : 0xF0 ≤ b0.val ∧ b0.val < 0xF5)
    (hlo : (if b0.val = 0xF0 then 0x90 else 0x80) ≤ b1.val)
    (hhi : b1.val ≤ (if b0.val = 0xF4 then 0x8F else 0xBF))
    (h2 : 0x80 ≤ b2.val ∧ b2.val ≤ 0xBF) (h3 : 0x80 ≤ b3.val ∧ b3.val ≤ 0xBF) :
    encodeArith (b0.val % 8 * 262144 + b1.val % 64 * 4096 + b2.val % 64 * 64 + b3.val % 64)
      = [b0, b1, b2, b3] := by
  have hb1 : 0x80 ≤ b1.val ∧ b1.val ≤ 0xBF := by split_ifs at hlo hhi <;> omega
  have hr1 : 65536 ≤ b0.val % 8 * 262144 + b1.val % 64 * 4096 + b2.val % 64 * 64 + b3.val % 64 := by
    split_ifs at hlo hhi <;> omega
  have hr2 : b0.val % 8 * 262144 + b1.val % 64 * 4096 + b2.val % 64 * 64 + b3.val % 64
      ≤ 0x10FFFF := by
    split_ifs at hlo hhi <;> omega
  unfold encodeArith
  rw [if_neg (by omega), if_neg (by omega), if_neg (by omega), if_neg (by omega)]
  rw [byte_of_eq _ b0 (by omega), byte_of_eq _ b1 (by omega), byte_of_eq _ b2 (by omega),
    byte_of_eq _ b3 (by omega)]

/-! ## The shape of a run -/

theorem startsWith_iff (p s : GoString) : startsWith p s = true ↔ ∃ rest, s = p ++ rest := by
  induction p generalizing s with
  | nil => simp [startsWith]
  | cons a p ih =>
    cases s with
    | nil => simp [startsWith]
    | cons b s =>
      simp only [startsWith, Bool.and_eq_true, beq_iff_eq, ih, List.cons_append,
        List.cons.injEq]
      constructor
      · rintro ⟨rfl, rest, rfl⟩
        exact ⟨rest, rfl, rfl⟩
      · rintro ⟨rest, rfl, rfl⟩
        exact ⟨rfl, rest, rfl⟩

theorem startsWith_vcs_eq (key : GoString) :
    startsWith vcs key = (decide (3 ≤ key.length) && (key.take 3 == vcs)) := by
  rcases key with _ | ⟨a, _ | ⟨b, _ | ⟨c, rest⟩⟩⟩
  · simp [startsWith, vcs]
  · simp [startsWith, vcs]
  · simp [startsWith, vcs]
  · rw [Bool.eq_iff_iff]
    simp only [startsWith, vcs, Bool.and_eq_true, beq_iff_eq, Bool.and_true, List.length_cons,
      decide_eq_true_eq, List.take_succ_cons, List.take_zero, List.cons.injEq, and_true]
    constructor
    · rintro ⟨rfl, rfl, rfl⟩
      exact ⟨by omega, rfl, rfl, rfl⟩
    · rintro ⟨-, rfl, rfl, rfl⟩
      exact ⟨rfl, rfl, rfl⟩

theorem Sprintf_lineFormat (T : Tables) (k v : GoString) :
    fmt.Sprintf T lineFormat [k, v] = renderLine T ⟨k, v⟩ := by
  simp [lineFormat, fmt.Sprintf, renderLine, strconv.Quote]

theorem keyCond_eq (key : GoString) (p : Proc) :
    keyCond key p =
      (.ok (startsWith vcs key),
        ⟨p.stdout, p.events ++ (if 3 ≤ key.length then [Event.slice key] else [])⟩) := by
  unfold keyCond sliceTo
  by_cases h : 3 ≤ key.length
  · simp [h, startsWith_vcs_eq, Proc.record]
  · simp [h, startsWith_vcs_eq]

theorem rangeSettings_eq (T : Tables) (l : List BuildSetting) (p : Proc) :
    rangeSettings T l p =
      (none, ⟨p.stdout ++ (l.filter (fun s => startsWith vcs s.Key)).flatMap (renderLine T),
              p.events ++ l.flatMap roundEvents⟩) := by
  induction l generalizing p with
  | nil => simp [rangeSettings]
  | cons s rest ih =>
    rw [rangeSettings, keyCond_eq]
    cases hk : startsWith vcs s.Key
    · simp [ih, hk, Proc.record, roundEvents]
    · simp [ih, hk, Proc.record, Proc.write, roundEvents, Sprintf_lineFormat]

theorem main_some (T : Tables) (bi : BuildInfo) :
    main T (some bi) =
      (.returned,
        ⟨bi.Main.Version ++ [0x0A] ++
            (bi.Settings.filter (fun s => startsWith vcs s.Key)).flatMap (renderLine T),
          bi.Settings.flatMap roundEvents⟩) := by
  simp [main, rangeSettings_eq, Proc.start, Proc.write, fmt.Sprintln]

theorem main_none (T : Tables) :
    main T none = (.panicked (.str failedToReadBuildInfo), ⟨[], []⟩) := rfl

theorem visited_append (a b : List Event) : visited (a ++ b) = visited a ++ visited b := by
  induction a with
  | nil => rfl
  | cons e a ih => cases e <;> simp [visited, ih]

theorem sliced_append (a b : List Event) : sliced (a ++ b) = sliced a ++ sliced b := by
  induction a with
  | nil => rfl
  | cons e a ih => cases e <;> simp [sliced, ih]

theorem visited_roundEvents (l : List BuildSetting) : visited (l.flatMap roundEvents) = l := by
  induction l with
  | nil => rfl
  | cons s rest ih =>
    rw [List.flatMap_cons, visited_append, ih]
    by_cases h : 3 ≤ s.Key.length <;> simp [roundEvents, h, visited]

theorem sliced_roundEvents (l : List BuildSetting) :
    ∀ k ∈ sliced (l.flatMap roundEvents), 3 ≤ k.length := by
  induction l with
  | nil => simp [sliced]
  | cons s rest ih =>
    rw [List.flatMap_cons, sliced_append]
    intro k hk
    rcases List.mem_append.1 hk with hk | hk
    · by_cases h : 3 ≤ s.Key.length
      · simp only [roundEvents, h, if_true, sliced, List.mem_singleton] at hk
        rw [hk]
        exact h
      · simp [roundEvents, h, sliced] at hk
    · exact ih k hk

theorem takeWhile_not_newline (v rest : GoString) (h : (0x0A : Byte) ∉ v) :
    (v ++ 0x0A :: rest).takeWhile (fun b => b != 0x0A) = v := by
  induction v with
  | nil => simp
  | cons a v ih =>
    have ha : a ≠ 0x0A := fun e => h (by simp [e])
    have hv : (0x0A : Byte) ∉ v := fun e => h (by simp [e])
    simp [List.takeWhile_cons, ha, ih hv]

/-! ## C3: the only abort is the failed retrieval -/

/-- C3: `main` aborts exactly when the build descriptor cannot be read.  When
`ReadBuildInfo` fails the run ends in a panic whose value is the string
"failed to read build info", with a non-zero exit status and nothing at all on
standard output; when it succeeds the run returns normally with exit status 0,
for every version and every settings list. -/
theorem main_aborts_iff_retrieval_fails :
    (∀ T : Tables,
      main T none = (.panicked (.str failedToReadBuildInfo), ⟨[], []⟩) ∧
      (main T none).1.exitStatus ≠ 0 ∧ (main T none).2.stdout = []) ∧
    (∀ (T : Tables) (bi : BuildInfo),
      (main T (some bi)).1 = .returned ∧ (main T (some bi)).1.exitStatus = 0) ∧
    (∀ (T : Tables) (read : Option BuildInfo),
      (∃ v, (main T read).1 = .panicked v) ↔ read = none) := by
  refine ⟨fun T => ⟨rfl, by simp [main_none, Termination.exitStatus], rfl⟩, ?_, ?_⟩
  · intro T bi
    simp [main_some, Termination.exitStatus]
  · intro T read
    cases read with
    | none => simp [main_none]
    | some bi => simp [main_some]

/-! ## C5: keys shorter than three bytes -/

/-- C5: a setting whose key has fewer than three bytes contributes nothing to the
output, whatever the key and the value are: wherever it stands in the settings
list of a descriptor, the run writes the same bytes and ends the same way as the
run on the list without it, and a run on that setting alone writes only the
version line. -/
theorem short_key_prints_nothing (T : Tables) (bi : BuildInfo) (key value : GoString)
    (before after : List BuildSetting) (hlen : key.length < 3) :
    (main T (some (withSettings bi (before ++ ⟨key, value⟩ :: after)))).2.stdout =
      (main T (some (withSettings bi (before ++ after)))).2.stdout ∧
    (main T (some (withSettings bi (before ++ ⟨key, value⟩ :: after)))).1 =
      (main T (some (withSettings bi (before ++ after)))).1 ∧
    (main T (some (withSettings bi [⟨key, value⟩]))).2.stdout = bi.Main.Version ++ [0x0A] := by
  have hk : startsWith vcs key = false := by
    rw [startsWith_vcs_eq]
    have : ¬ 3 ≤ key.length := by omega
    simp [this]
  simp [main_some, withSettings, List.filter_cons, hk]

/-- C5, at the keys the claim names: the empty key, `v` and `vc`. -/
theorem short_key_prints_nothing_witness :
    (([0x76, 0x63] : GoString).length < 3 ∧
      (main sampleTables (some (withSettings (infoOf versionV123 [])
          ([⟨keyVcsRevision, valueAbc123⟩] ++ ⟨[0x76, 0x63], valueAbc123⟩ :: [])))).2.stdout =
        (main sampleTables (some (withSettings (infoOf versionV123 [])
          ([⟨keyVcsRevision, valueAbc123⟩] ++ [])))).2.stdout) ∧
    (main sampleTables (some (withSettings (infoOf versionV123 [])
        [⟨[], valueAbc123⟩]))).2.stdout = versionV123 ++ [0x0A] ∧
    (main sampleTables (some (withSettings (infoOf versionV123 [])
        [⟨[0x76], valueAbc123⟩]))).2.stdout = versionV123 ++ [0x0A] :=
  ⟨⟨by decide,
    (short_key_prints_nothing sampleTables (infoOf versionV123 []) [0x76, 0x63] valueAbc123
      [⟨keyVcsRevision, valueAbc123⟩] [] (by decide)).1⟩,
   (short_key_prints_nothing sampleTables (infoOf versionV123 []) [] valueAbc123 [] []
      (by decide)).2.2,
   (short_key_prints_nothing sampleTables (infoOf versionV123 []) [0x76] valueAbc123 [] []
      (by decide)).2.2⟩

/-! ## C10: the slice expression is guarded -/

/-- C10: the slice expression `setting.Key[:3]` would panic on a key shorter than
three bytes, but the run never evaluates it on one: every key it was evaluated
on has at least three bytes, the condition yields a boolean for every key, no
run ends in a slice-bounds panic, and the loop visits every setting of the list
exactly once, in order. -/
theorem slice_is_guarded :
    (∀ key : GoString, key.length < 3 → sliceTo key 3 = .error (.sliceBounds 3 key.length)) ∧
    (∀ (key : GoString) (p : Proc), ∃ b, (keyCond key p).1 = .ok b) ∧
    (∀ (T : Tables) (read : Option BuildInfo) (hi len : Nat),
      (main T read).1 ≠ .panicked (.sliceBounds hi len)) ∧
    (∀ (T : Tables) (read : Option BuildInfo),
      ∀ k ∈ sliced (main T read).2.events, 3 ≤ k.length) ∧
    (∀ (T : Tables) (bi : BuildInfo), visited (main T (some bi)).2.events = bi.Settings) := by
  refine ⟨?_, ?_, ?_, ?_, ?_⟩
  · intro key h
    have : ¬ 3 ≤ key.length := by omega
    simp [sliceTo, this]
  · intro key p
    exact ⟨_, by rw [keyCond_eq]⟩
  · intro T read hi len
    cases read with
    | none => simp [main_none]
    | some bi => simp [main_some]
  · intro T read
    cases read with
    | none => simp [main_none, sliced]
    | some bi =>
      rw [main_some]
      exact sliced_roundEvents bi.Settings
  · intro T bi
    rw [main_some]
    exact visited_roundEvents bi.Settings


theorem decode_ascii (b0 : Byte) (rest : GoString) (h : b0.val < 0x80) :
    utf8.DecodeRuneInString (b0 :: rest) = (b0.val, 1) := by
  rw [decode_eq]
  simp [decodeArith, h]

/-- What decoding yields at a byte that is not ASCII: the error rune with width 1, or a
rune of two to four bytes that encodes back to exactly the bytes it was read from. -/
theorem decode_cases (b0 : Byte) (rest : GoString) (h : 0x80 ≤ b0.val) :
    utf8.DecodeRuneInString (b0 :: rest) = (utf8.RuneError, 1) ∨
    ∃ r w, utf8.DecodeRuneInString (b0 :: rest) = (r, w) ∧ 2 ≤ w ∧
      w ≤ (b0 :: rest).length ∧ 0x80 ≤ r ∧ r ≤ 0x10FFFF ∧ ¬ (0xD800 ≤ r ∧ r ≤ 0xDFFF) ∧
      encodeArith r = (b0 :: rest).take w := by
  rw [decode_eq]
  simp only [decodeArith]
  have hb := b0.isLt
  rw [if_neg (by omega)]
  by_cases h2 : b0.val < 0xC2
  · left; rw [if_pos h2]
  rw [if_neg h2]
  by_cases h3 : b0.val < 0xE0
  · rw [if_pos h3]
    rcases rest with _ | ⟨b1, t⟩
    · left; rfl
    · by_cases hc : 0x80 ≤ b1.val ∧ b1.val ≤ 0xBF
      · right
        refine ⟨b0.val % 32 * 64 + b1.val % 64, 2, by simp only [if_pos hc], by omega, by simp, ?_, ?_, ?_, ?_⟩
        · omega
        · omega
        · omega
        · rw [encode2 b0 b1 ⟨by omega, h3⟩ hc]; rfl
      · left; simp only [if_neg hc]
  rw [if_neg h3]
  by_cases h4 : b0.val < 0xF0
  · rw [if_pos h4]
    rcases rest with _ | ⟨b1, _ | ⟨b2, t⟩⟩
    · left; rfl
    · left; rfl
    · by_cases hc : (if b0.val = 0xE0 then 0xA0 else 0x80) ≤ b1.val ∧
          b1.val ≤ (if b0.val = 0xED then 0x9F else 0xBF) ∧ 0x80 ≤ b2.val ∧ b2.val ≤ 0xBF
      · right
        have he := encode3 b0 b1 b2 ⟨by omega, h4⟩ hc.1 hc.2.1 hc.2.2
        obtain ⟨hlo, hhi, hb2⟩ := hc
        refine ⟨b0.val % 16 * 4096 + b1.val % 64 * 64 + b2.val % 64, 3, by simp only [if_pos (And.intro hlo (And.intro hhi hb2))], by omega,
          by simp, ?_, ?_, ?_, ?_⟩
        · split_ifs at hlo hhi <;> omega
        · split_ifs at hlo hhi <;> omega
        · split_ifs at hlo hhi <;> omega
        · rw [he]; rfl
      · left; simp only [if_neg hc]
  rw [if_neg h4]
  by_cases h5 : b0.val < 0xF5
  · rw [if_pos h5]
    rcases rest with _ | ⟨b1, _ | ⟨b2, _ | ⟨b3, t⟩⟩⟩
    · left; rfl
    · left; rfl
    · left; rfl
    · by_cases hc : (if b0.val = 0xF0 then 0x90 else 0x80) ≤ b1.val ∧
          b1.val ≤ (if b0.val = 0xF4 then 0x8F else 0xBF) ∧ 0x80 ≤ b2.val ∧ b2.val ≤ 0xBF ∧
          0x80 ≤ b3.val ∧ b3.val ≤ 0xBF
      · right
        have he := encode4 b0 b1 b2 b3 ⟨by omega, h5⟩ hc.1 hc.2.1 ⟨hc.2.2.1, hc.2.2.2.1⟩
          hc.2.2.2.2
        have hc' := hc
        obtain ⟨hlo, hhi, hb2, hb2', hb3⟩ := hc
        refine ⟨b0.val % 8 * 262144 + b1.val % 64 * 4096 + b2.val % 64 * 64 + b3.val % 64, 4,
          by simp only [if_pos hc'], by omega, by simp, ?_, ?_, ?_, ?_⟩
        · split_ifs at hlo hhi <;> omega
        · split_ifs at hlo hhi <;> omega
        · split_ifs at hlo hhi <;> omega
        · rw [he]; rfl
      · left; simp only [if_neg hc]
  · left; rw [if_neg h5]


theorem ite_append_left (c : Prop) [Decidable c] (b x y : GoString) :
    (if c then b ++ x else b ++ y) = b ++ if c then x else y := by
  split_ifs <;> rfl

theorem appendEscapedRune_buf (T : Tables) (buf : GoString) (r : Nat) (q : Byte) (a g : Bool) :
    strconv.appendEscapedRune T buf r q a g = buf ++ strconv.appendEscapedRune T [] r q a g := by
  unfold strconv.appendEscapedRune
  rw [appendRune_eq, appendRune_eq []]
  simp only [List.append_assoc, List.nil_append, ite_append_left]

theorem headRune_width_pos (b0 : Byte) (rest : GoString) : 1 ≤ (headRune b0 rest).2 := by
  unfold headRune
  split_ifs with h
  · rcases decode_cases b0 rest h with e | ⟨r, w, e, hw, -⟩
    · rw [e]
    · rw [e]; exact le_trans (by decide) hw
  · exact le_refl 1

theorem headRune_width_le (b0 : Byte) (rest : GoString) :
    (headRune b0 rest).2 ≤ (b0 :: rest).length := by
  unfold headRune
  split_ifs with h
  · rcases decode_cases b0 rest h with e | ⟨r, w, e, -, hw, -⟩
    · rw [e]; simp
    · rw [e]; exact hw
  · simp

theorem quoteLoop_nil (T : Tables) (q : Byte) (a g : Bool) (buf : GoString) :
    strconv.quoteLoop T q a g buf [] = buf := by
  rw [strconv.quoteLoop]

theorem quoteLoop_buf (T : Tables) (q : Byte) (a g : Bool) (s buf : GoString) :
    strconv.quoteLoop T q a g buf s = buf ++ strconv.quoteLoop T q a g [] s := by
  suffices h : ∀ n, ∀ (s buf : GoString), s.length = n →
      strconv.quoteLoop T q a g buf s = buf ++ strconv.quoteLoop T q a g [] s from
    h _ s buf rfl
  intro n
  induction n using Nat.strong_induction_on with
  | _ n ih =>
    intro s buf hn
    rcases s with _ | ⟨b0, rest⟩
    · simp [quoteLoop_nil]
    · rw [strconv.quoteLoop, strconv.quoteLoop]
      have hpos := headRune_width_pos b0 rest
      unfold headRune at hpos
      generalize (if b0.val ≥ utf8.RuneSelf then utf8.DecodeRuneInString (b0 :: rest)
        else (b0.val, 1)) = d at hpos ⊢
      have hlt : ((b0 :: rest).drop d.2).length < n := by
        rw [List.length_drop, ← hn]
        simp only [List.length_cons]
        omega
      split_ifs with hc
      · rw [ih _ hlt _ _ rfl, ih _ hlt _ ([] ++ _) rfl]
        simp
      · rw [ih _ hlt _ _ rfl, ih _ hlt _ (strconv.appendEscapedRune T [] _ q a g) rfl]
        rw [appendEscapedRune_buf]
        simp

theorem quoteBody_nil (T : Tables) : quoteBody T [] = [] := by
  simp [quoteBody, quoteLoop_nil]

theorem quoteBody_cons (T : Tables) (b0 : Byte) (rest : GoString) :
    quoteBody T (b0 :: rest) =
      roundBytes T b0 rest ++ quoteBody T ((b0 :: rest).drop (headRune b0 rest).2) := by
  unfold quoteBody roundBytes headRune
  rw [strconv.quoteLoop]
  generalize (if b0.val ≥ utf8.RuneSelf then utf8.DecodeRuneInString (b0 :: rest)
    else (b0.val, 1)) = d
  split_ifs with hc
  · rw [quoteLoop_buf]; simp
  · rw [quoteLoop_buf]

theorem Quote_eq (T : Tables) (s : GoString) :
    strconv.Quote T s = 0x22 :: quoteBody T s ++ [0x22] := by
  unfold strconv.Quote strconv.AppendQuote strconv.appendQuotedWith quoteBody
  rw [quoteLoop_buf]
  simp

/-- Induction along the rounds of the quoting loop. -/
theorem quote_induction (P : GoString → Prop) (hnil : P [])
    (hstep : ∀ b0 rest, P ((b0 :: rest).drop (headRune b0 rest).2) → P (b0 :: rest)) :
    ∀ s, P s := by
  suffices h : ∀ n, ∀ s : GoString, s.length = n → P s from fun s => h _ s rfl
  intro n
  induction n using Nat.strong_induction_on with
  | _ n ih =>
    intro s hn
    rcases s with _ | ⟨b0, rest⟩
    · exact hnil
    · apply hstep
      have hpos := headRune_width_pos b0 rest
      refine ih _ ?_ _ rfl
      rw [List.length_drop, ← hn]
      simp only [List.length_cons]
      omega


theorem headRune_ascii (b0 : Byte) (rest : GoString) (h : b0.val < 0x80) :
    headRune b0 rest = (b0.val, 1) := by
  unfold headRune utf8.RuneSelf
  rw [if_neg (by omega)]

theorem roundBytes_ascii (T : Tables) (b0 : Byte) (rest : GoString) (h : b0.val < 0x80) :
    roundBytes T b0 rest = strconv.appendEscapedRune T [] b0.val 0x22 false false := by
  unfold roundBytes
  rw [headRune_ascii b0 rest h]
  have : ¬ ((1 : Nat) = 1 ∧ b0.val = utf8.RuneError) := by
    unfold utf8.RuneError; omega
  rw [if_neg this]

theorem quoteBody_cons_ascii (T : Tables) (b0 : Byte) (rest : GoString) (h : b0.val < 0x80) :
    quoteBody T (b0 :: rest) =
      strconv.appendEscapedRune T [] b0.val 0x22 false false ++ quoteBody T rest := by
  rw [quoteBody_cons, roundBytes_ascii T b0 rest h, headRune_ascii b0 rest h]
  rfl

theorem escaped_plain (T : Tables) (b : Byte) (h : plainASCII b = true) :
    strconv.appendEscapedRune T [] b.val 0x22 false false = [b] := by
  simp only [plainASCII, Bool.and_eq_true, decide_eq_true_eq, bne_iff_ne, ne_eq] at h
  obtain ⟨⟨⟨h1, h2⟩, h3⟩, h4⟩ := h
  have n3 : b.val ≠ 0x22 := fun e => h3 (Fin.ext e)
  have n4 : b.val ≠ 0x5C := fun e => h4 (Fin.ext e)
  have hp : strconv.IsPrint T b.val = true := by
    unfold strconv.IsPrint
    rw [if_pos (by omega), if_pos ⟨h1, h2⟩]
  unfold strconv.appendEscapedRune
  have q : (0x22 : Byte).val = 0x22 := rfl
  rw [if_neg (by rw [q]; omega)]
  rw [if_neg (by simp)]
  rw [if_pos (by simp [hp])]
  rw [appendRune_eq]
  unfold encodeArith
  rw [if_pos (by omega), byte_val]
  rfl

theorem quoteBody_plain (T : Tables) (v : GoString) (h : ∀ b ∈ v, plainASCII b = true) :
    quoteBody T v = v := by
  induction v with
  | nil => exact quoteBody_nil T
  | cons b v ih =>
    have hb := h b (List.mem_cons_self _ _)
    have hlt : b.val < 0x80 := by
      simp only [plainASCII, Bool.and_eq_true, decide_eq_true_eq] at hb
      omega
    rw [quoteBody_cons_ascii T b v hlt, escaped_plain T b hb,
      ih (fun c hc => h c (List.mem_cons_of_mem _ hc))]
    rfl

/-! ## C1: the version line -/

theorem IndexByte_line (line rest : GoString) (c : Byte) (h : c ∉ line) :
    strings.IndexByte (line ++ c :: rest) c = some line.length := by
  induction line with
  | nil => simp [strings.IndexByte]
  | cons a l ih =>
    have ha : a ≠ c := fun e => h (by simp [e])
    have hl : c ∉ l := fun e => h (by simp [e])
    simp [strings.IndexByte, ha, ih hl]

theorem Cut_line (line rest : GoString) (c : Byte) (h : c ∉ line) :
    strings.Cut (line ++ c :: rest) c = (line, rest, true) := by
  unfold strings.Cut
  rw [IndexByte_line line rest c h]
  simp

theorem IndexByte_take (s : GoString) (c : Byte) :
    ∀ i, strings.IndexByte s c = some i → c ∉ s.take i ∧ s = s.take i ++ c :: s.drop (i + 1) := by
  induction s with
  | nil => intro i h; simp [strings.IndexByte] at h
  | cons a l ih =>
    intro i h
    by_cases ha : a = c
    · simp only [strings.IndexByte, if_pos ha, Option.some.injEq] at h
      subst h
      simp [ha]
    · simp only [strings.IndexByte, if_neg ha, Option.map_eq_some'] at h
      obtain ⟨j, hj, rfl⟩ := h
      obtain ⟨h1, h2⟩ := ih j hj
      refine ⟨?_, ?_⟩
      · simp only [List.take_succ_cons, List.mem_cons, not_or]
        exact ⟨fun e => ha e.symm, h1⟩
      · simp only [List.take_succ_cons, List.drop_succ_cons, List.cons_append, List.cons.injEq,
          true_and]
        exact h2

theorem Cut_found (s line rest : GoString) (c : Byte)
    (h : strings.Cut s c = (line, rest, true)) : c ∉ line ∧ s = line ++ c :: rest := by
  unfold strings.Cut at h
  split at h
  · rename_i i hi
    simp only [Prod.mk.injEq, and_true] at h
    obtain ⟨h1, h2⟩ := IndexByte_take s c i hi
    rw [← h.1, ← h.2]
    exact ⟨h1, h2⟩
  · simp at h

theorem parseLoop_nil (P : GoString → Option BuildSetting) (st : ParseState) :
    parseLoop P [] st = some st := by
  rw [parseLoop]
  simp

theorem parseLoop_line (P : GoString → Option BuildSetting) (line rest : GoString)
    (st : ParseState) (h : newline ∉ line) :
    parseLoop P (line ++ newline :: rest) st =
      (parseLine P line st).bind (fun st1 => parseLoop P rest st1) := by
  rw [parseLoop]
  have hc := Cut_line line rest newline h
  have hlen : (line ++ newline :: rest).length > 0 := by simp
  rw [if_pos hlen]
  split
  · rename_i l r heq
    rw [hc] at heq
    simp only [Prod.mk.injEq, and_true] at heq
    rw [← heq.1, ← heq.2]
    cases parseLine P line st <;> rfl
  · rename_i heq
    rw [hc] at heq
    simp at heq

theorem parseLoop_nocut (P : GoString → Option BuildSetting) (data l r : GoString)
    (st : ParseState) (h : strings.Cut data newline = (l, r, false)) :
    parseLoop P data st = some st := by
  rw [parseLoop]
  split_ifs
  · split
    · rename_i heq
      rw [h] at heq
      simp at heq
    · rfl
  · rfl

theorem Split_mem (s : GoString) (sep : Byte) :
    ∀ e ∈ strings.Split s sep, ∀ x ∈ e, x ∈ s := by
  induction s with
  | nil =>
    intro e he x hx
    simp only [strings.Split, List.mem_singleton] at he
    rw [he] at hx
    exact hx
  | cons b rest ih =>
    intro e he x hx
    unfold strings.Split at he
    split_ifs at he with hb
    · rw [List.mem_cons] at he
      rcases he with he | he
      · rw [he] at hx
        exact absurd hx (List.not_mem_nil _)
      · exact List.mem_cons_of_mem _ (ih e he x hx)
    · split at he
      · rw [List.mem_singleton] at he
        rw [he] at hx
        rw [List.mem_singleton] at hx
        rw [hx]
        exact List.mem_cons_self _ _
      · rename_i y ys heq
        rw [List.mem_cons] at he
        rcases he with he | he
        · rw [he, List.mem_cons] at hx
          rcases hx with hx | hx
          · rw [hx]; exact List.mem_cons_self _ _
          · exact List.mem_cons_of_mem _ (ih y (by rw [heq]; exact List.mem_cons_self _ _) x hx)
        · exact List.mem_cons_of_mem _
            (ih e (by rw [heq]; exact List.mem_cons_of_mem _ he) x hx)

theorem readModuleLine_version (elem : List GoString) (m : Module)
    (h : readModuleLine elem = some m) : m.Version ∈ elem := by
  unfold readModuleLine at h
  split at h
  · simp only [Option.some.injEq] at h
    rw [← h]
    simp [Module.Version]
  · simp only [Option.some.injEq] at h
    rw [← h]
    simp [Module.Version]
  · exact Option.noConfusion h

theorem setReplace_version (m r : Module) : (m.setReplace r).Version = m.Version := by
  cases m
  rfl

/-- A line of the build-info text never brings a newline into the version of the
main module. -/
theorem parseLine_version (P : GoString → Option BuildSetting) (line : GoString)
    (st st1 : ParseState) (hl : newline ∉ line) (hs : newline ∉ st.bi.Main.Version)
    (h : parseLine P line st = some st1) : newline ∉ st1.bi.Main.Version := by
  unfold parseLine at h
  split_ifs at h
  · simp only [Option.some.injEq] at h
    rw [← h]
    exact hs
  · split at h
    · exact Option.noConfusion h
    · rename_i m hm
      simp only [Option.some.injEq] at h
      rw [← h]
      intro hv
      exact hl (List.mem_of_mem_drop
        (Split_mem _ _ _ (readModuleLine_version _ _ hm) _ hv))
  · split at h
    · exact Option.noConfusion h
    · simp only [Option.some.injEq] at h
      rw [← h]
      exact hs
  · split at h
    · split at h
      · exact Option.noConfusion h
      · simp only [Option.some.injEq] at h
        rw [← h]
        simp only [setReplace_version]
        exact hs
      · simp only [Option.some.injEq] at h
        rw [← h]
        exact hs
    · exact Option.noConfusion h
  · split at h
    · exact Option.noConfusion h
    · simp only [Option.some.injEq] at h
      rw [← h]
      exact hs
  · simp only [Option.some.injEq] at h
    rw [← h]
    exact hs

theorem parseLoop_version (P : GoString → Option BuildSetting) :
    ∀ (data : GoString) (st st1 : ParseState), newline ∉ st.bi.Main.Version →
      parseLoop P data st = some st1 → newline ∉ st1.bi.Main.Version := by
  suffices h : ∀ n, ∀ (data : GoString) (st st1 : ParseState), data.length = n →
      newline ∉ st.bi.Main.Version → parseLoop P data st = some st1 →
      newline ∉ st1.bi.Main.Version from fun data st st1 => h _ data st st1 rfl
  intro n
  induction n using Nat.strong_induction_on with
  | _ n ih =>
    intro data st st1 hn hs h
    rcases hcut : strings.Cut data newline with ⟨line, rest, ok⟩
    cases ok
    · rw [parseLoop_nocut P data line rest st hcut, Option.some.injEq] at h
      rw [← h]
      exact hs
    · obtain ⟨hl, hd⟩ := Cut_found data line rest newline hcut
      rw [hd, parseLoop_line P line rest st hl] at h
      rcases hp : parseLine P line st with _ | st2
      · rw [hp] at h
        exact Option.noConfusion h
      · rw [hp, Option.some_bind] at h
        have hlt : rest.length < n := by
          rw [← hn, hd, List.length_append, List.length_cons]
          omega
        exact ih _ hlt rest st2 st1 rfl (parseLine_version P line st st2 hl hs hp) h

/-- The version of the main module in a descriptor `ReadBuildInfo` returns holds
no newline: it is a column of one line of the build-info text. -/
theorem ReadBuildInfo_version (P : GoString → Option BuildSetting)
    (runtimeVersion modinfo : GoString) (bi : BuildInfo)
    (h : ReadBuildInfo P runtimeVersion modinfo = some bi) :
    (0x0A : Byte) ∉ bi.Main.Version := by
  unfold ReadBuildInfo at h
  split_ifs at h
  split at h
  · exact Option.noConfusion h
  · rename_i b hb
    simp only [Option.some.injEq] at h
    rw [← h]
    unfold ParseBuildInfo at hb
    rcases hp : parseLoop P ((modinfo.take (modinfo.length - 16)).drop 16)
      ⟨⟨[], [], .mk [] [] [] none, [], []⟩, .null⟩ with _ | st1
    · rw [hp] at hb
      exact Option.noConfusion hb
    · rw [hp, Option.map_some', Option.some.injEq] at hb
      rw [← hb]
      exact parseLoop_version P _ _ st1 (by simp [Module.Version]) hp

theorem sampleModinfo_read :
    ReadBuildInfo sampleReadBuild sampleGoVersion sampleModinfo =
      some ⟨sampleGoVersion, [], .mk [0x6D] versionV123 [] none, [],
        [⟨keyVcsRevision, valueAbc123⟩]⟩ := by
  have hd : (sampleModinfo.take (sampleModinfo.length - 16)).drop 16 = sampleText := by
    decide
  have h1 : newline ∉ modLine ++ [0x6D, 0x09] ++ versionV123 := by decide
  have h2 : newline ∉ buildLine ++ keyVcsRevision ++ [0x3D] ++ valueAbc123 := by decide
  have hs : sampleText = (modLine ++ [0x6D, 0x09] ++ versionV123) ++ newline ::
      ((buildLine ++ keyVcsRevision ++ [0x3D] ++ valueAbc123) ++ newline :: []) := by decide
  have e1 : parseLine sampleReadBuild (modLine ++ [0x6D, 0x09] ++ versionV123)
      ⟨⟨[], [], .mk [] [] [] none, [], []⟩, .null⟩ =
      some ⟨⟨[], [], .mk [0x6D] versionV123 [] none, [], []⟩, .main⟩ := rfl
  have e2 : parseLine sampleReadBuild (buildLine ++ keyVcsRevision ++ [0x3D] ++ valueAbc123)
      ⟨⟨[], [], .mk [0x6D] versionV123 [] none, [], []⟩, .main⟩ =
      some ⟨⟨[], [], .mk [0x6D] versionV123 [] none, [], [⟨keyVcsRevision, valueAbc123⟩]⟩,
        .main⟩ := rfl
  have hp : ParseBuildInfo sampleReadBuild sampleText =
      some ⟨[], [], .mk [0x6D] versionV123 [] none, [], [⟨keyVcsRevision, valueAbc123⟩]⟩ := by
    unfold ParseBuildInfo
    rw [hs, parseLoop_line _ _ _ _ h1, e1, Option.some_bind, parseLoop_line _ _ _ _ h2, e2,
      Option.some_bind, parseLoop_nil]
    rfl
  unfold ReadBuildInfo
  rw [if_neg (by decide), hd, hp]

/-- C1: for every descriptor `ReadBuildInfo` returns, whatever its settings, the
version of the main module holds no newline, the run on it returns, and the first
line of the output (the text before the first newline) is the version exactly,
empty or not.  For every descriptor whatsoever the output begins with the version
followed by a newline, and its first line is the version whenever the version
holds no newline. -/
theorem first_line_is_version (T : Tables) :
    (∀ (readBuild : GoString → Option BuildSetting) (runtimeVersion modinfo : GoString)
        (bi : BuildInfo), ReadBuildInfo readBuild runtimeVersion modinfo = some bi →
      (0x0A : Byte) ∉ bi.Main.Version ∧
      (main T (ReadBuildInfo readBuild runtimeVersion modinfo)).1 = .returned ∧
      firstLine (main T (ReadBuildInfo readBuild runtimeVersion modinfo)).2.stdout =
        bi.Main.Version) ∧
    (∀ bi : BuildInfo, ∃ rest, (main T (some bi)).2.stdout = bi.Main.Version ++ 0x0A :: rest) ∧
    (∀ bi : BuildInfo, (0x0A : Byte) ∉ bi.Main.Version →
      firstLine (main T (some bi)).2.stdout = bi.Main.Version) := by
  have hfirst : ∀ bi : BuildInfo, (0x0A : Byte) ∉ bi.Main.Version →
      firstLine (main T (some bi)).2.stdout = bi.Main.Version := by
    intro bi h
    rw [main_some]
    simp only [firstLine, List.append_assoc, List.singleton_append]
    exact takeWhile_not_newline _ _ h
  refine ⟨?_, ?_, hfirst⟩
  · intro readBuild runtimeVersion modinfo bi h
    have hv := ReadBuildInfo_version readBuild runtimeVersion modinfo bi h
    rw [h]
    refine ⟨hv, ?_, hfirst bi hv⟩
    rw [main_some]
  · intro bi
    rw [main_some]
    exact ⟨(bi.Settings.filter (fun s => startsWith vcs s.Key)).flatMap (renderLine T),
      by simp⟩

/-- C1, at the build-info text `mod m v1.2.3`, `build vcs.revision=abc123`: the
descriptor read from it, and the first line `v1.2.3`. -/
theorem first_line_is_version_witness :
    ReadBuildInfo sampleReadBuild sampleGoVersion sampleModinfo =
      some ⟨sampleGoVersion, [], .mk [0x6D] versionV123 [] none, [],
        [⟨keyVcsRevision, valueAbc123⟩]⟩ ∧
    firstLine (main sampleTables
      (ReadBuildInfo sampleReadBuild sampleGoVersion sampleModinfo)).2.stdout = versionV123 :=
  ⟨sampleModinfo_read,
   ((first_line_is_version sampleTables).1 sampleReadBuild sampleGoVersion sampleModinfo _
      sampleModinfo_read).2.2⟩

/-! ## C9: the output is a function of the descriptor -/

/-- C9: the run is a function of what retrieval yields, and of that it uses only
the version and the settings: two runs whose retrievals have the same outcome, the
same version and the same settings list write the same bytes, end the same way
and go through the same events. -/
theorem output_is_function_of_descriptor (T : Tables) (r1 r2 : Option BuildInfo)
    (h : r1.map descriptor = r2.map descriptor) : main T r1 = main T r2 := by
  cases r1 with
  | none =>
    cases r2 with
    | none => rfl
    | some b2 => simp at h
  | some b1 =>
    cases r2 with
    | none => simp at h
    | some b2 =>
      simp only [Option.map_some', Option.some.injEq, descriptor, Prod.mk.injEq] at h
      rw [main_some, main_some, h.1, h.2]

/-- C9, at two descriptors that differ in the Go version, the path, the module
path and the dependencies but not in version and settings. -/
theorem output_is_function_of_descriptor_witness :
    main sampleTables (some ⟨[0x67, 0x6F], [0x70], .mk [0x6D] versionV123 [0x68] none,
        [moduleOf [0x64]], [⟨keyVcsRevision, valueAbc123⟩]⟩) =
      main sampleTables (some (infoOf versionV123 [⟨keyVcsRevision, valueAbc123⟩])) :=
  output_is_function_of_descriptor sampleTables _ _ rfl

/-! ## C6: plain values are printed unchanged -/

/-- C6: for a key that starts with `vcs` and a value made only of printable ASCII
characters other than the double quote and the backslash, the line printed for
the setting is the key, ` = "`, the value unchanged, `"` and a newline, wherever
the setting stands in the list: the output is what the settings before it give,
then that line, then the lines of the settings after it. -/
theorem plain_value_printed_unchanged (T : Tables) (bi : BuildInfo) (key value : GoString)
    (before after : List BuildSetting) (hk : startsWith vcs key = true)
    (hv : value.all plainASCII = true) :
    fmt.Sprintf T lineFormat [key, value] =
      key ++ [0x20, 0x3D, 0x20, 0x22] ++ value ++ [0x22, 0x0A] ∧
    (main T (some (withSettings bi (before ++ ⟨key, value⟩ :: after)))).2.stdout =
      (main T (some (withSettings bi before))).2.stdout ++
        (key ++ [0x20, 0x3D, 0x20, 0x22] ++ value ++ [0x22, 0x0A]) ++
        (after.filter (fun s => startsWith vcs s.Key)).flatMap (renderLine T) := by
  have hl : renderLine T ⟨key, value⟩ =
      key ++ [0x20, 0x3D, 0x20, 0x22] ++ value ++ [0x22, 0x0A] := by
    simp [renderLine, Quote_eq, quoteBody_plain T value (List.all_eq_true.1 hv)]
  refine ⟨by rw [Sprintf_lineFormat, hl], ?_⟩
  rw [main_some, main_some]
  simp only [withSettings, List.filter_append, List.filter_cons, hk, if_true,
    List.flatMap_append, List.flatMap_cons, hl]
  simp

/-- C6, at the example of the specification: key `vcs.revision` with value
`abc123` prints the line `vcs.revision = "abc123"`. -/
theorem plain_value_printed_unchanged_witness :
    startsWith vcs keyVcsRevision = true ∧ valueAbc123.all plainASCII = true ∧
    fmt.Sprintf sampleTables lineFormat [keyVcsRevision, valueAbc123] =
      [0x76, 0x63, 0x73, 0x2E, 0x72, 0x65, 0x76, 0x69, 0x73, 0x69, 0x6F, 0x6E, 0x20, 0x3D, 0x20,
        0x22, 0x61, 0x62, 0x63, 0x31, 0x32, 0x33, 0x22, 0x0A] ∧
    (main sampleTables (some (withSettings (infoOf versionV123 [])
        [⟨keyVcsRevision, valueAbc123⟩]))).2.stdout =
      versionV123 ++ [0x0A] ++
      [0x76, 0x63, 0x73, 0x2E, 0x72, 0x65, 0x76, 0x69, 0x73, 0x69, 0x6F, 0x6E, 0x20, 0x3D, 0x20,
        0x22, 0x61, 0x62, 0x63, 0x31, 0x32, 0x33, 0x22, 0x0A] :=
  ⟨rfl, rfl,
   (plain_value_printed_unchanged sampleTables (infoOf versionV123 []) keyVcsRevision
      valueAbc123 [] [] rfl rfl).1,
   (plain_value_printed_unchanged sampleTables (infoOf versionV123 []) keyVcsRevision
      valueAbc123 [] [] rfl rfl).2.trans (by rw [main_some]; rfl)⟩


theorem escaped_eq (T : Tables) (r : Nat) :
    strconv.appendEscapedRune T [] r 0x22 false false =
      if r = 0x22 ∨ r = 0x5C then [0x5C, byte r]
      else if strconv.IsPrint T r = true then encodeArith r
      else if r = 0x07 then [0x5C, 0x61]
      else if r = 0x08 then [0x5C, 0x62]
      else if r = 0x0C then [0x5C, 0x66]
      else if r = 0x0A then [0x5C, 0x6E]
      else if r = 0x0D then [0x5C, 0x72]
      else if r = 0x09 then [0x5C, 0x74]
      else if r = 0x0B then [0x5C, 0x76]
      else if r < 0x20 ∨ r = 0x7F then
        [0x5C, 0x78, strconv.lowerhex ((byte r).val >>> 4), strconv.lowerhex ((byte r).val &&& 0xF)]
      else if ¬ utf8.ValidRune r then [0x5C, 0x75] ++ strconv.hexDigits 0xFFFD 3
      else if r < 0x10000 then [0x5C, 0x75] ++ strconv.hexDigits r 3
      else [0x5C, 0x55] ++ strconv.hexDigits r 7 := by
  unfold strconv.appendEscapedRune
  rw [appendRune_eq]
  have q : (0x22 : Byte).val = 0x22 := rfl
  simp only [q, List.nil_append, Bool.false_eq_true, false_and, and_false, or_false, if_false,
    not_false_eq_true, true_and]

theorem isPrint_ascii (T : Tables) (r : Nat) (h : r < 0x80) :
    strconv.IsPrint T r = true ↔ 0x20 ≤ r ∧ r ≤ 0x7E := by
  unfold strconv.IsPrint
  rw [if_pos (by omega)]
  by_cases h1 : 0x20 ≤ r ∧ r ≤ 0x7E
  · simp [h1]
  · rw [if_neg h1, if_neg (by omega)]
    simp [h1]

/-- The shape of what one round of the quoting loop writes. -/
theorem roundBytes_shape (T : Tables) (b0 : Byte) (rest : GoString) :
    ((headRune b0 rest).2 = 1 ∧ ∃ e, simpleEscape b0 = some e ∧ roundBytes T b0 rest = [0x5C, e]) ∨
    ((headRune b0 rest).2 = 1 ∧ roundBytes T b0 rest =
      [0x5C, 0x78, strconv.lowerhex (b0.val >>> 4), strconv.lowerhex (b0.val &&& 0xF)]) ∨
    ((headRune b0 rest).2 = 1 ∧ plainASCII b0 = true ∧ roundBytes T b0 rest = [b0]) ∨
    (∃ r, 0x80 ≤ r ∧ r ≤ 0x10FFFF ∧ ¬ (0xD800 ≤ r ∧ r ≤ 0xDFFF) ∧
      encodeArith r = (b0 :: rest).take (headRune b0 rest).2 ∧
      ((strconv.IsPrint T r = true ∧ roundBytes T b0 rest = encodeArith r) ∨
       (r < 0x10000 ∧ roundBytes T b0 rest = [0x5C, 0x75] ++ strconv.hexDigits r 3) ∨
       (0x10000 ≤ r ∧ roundBytes T b0 rest = [0x5C, 0x55] ++ strconv.hexDigits r 7))) := by
  by_cases h : b0.val < 0x80
  · rw [roundBytes_ascii T b0 rest h, headRune_ascii b0 rest h, escaped_eq]
    by_cases c1 : b0.val = 0x22 ∨ b0.val = 0x5C
    · left
      rw [if_pos c1, byte_val]
      refine ⟨rfl, b0, ?_, rfl⟩
      rcases c1 with c | c
      · have : b0 = 0x22 := Fin.ext c
        rw [this]; rfl
      · have : b0 = 0x5C := Fin.ext c
        rw [this]; rfl
    rw [if_neg c1]
    by_cases c2 : strconv.IsPrint T b0.val = true
    · right; right; left
      rw [if_pos c2]
      have hp := (isPrint_ascii T b0.val h).1 c2
      refine ⟨rfl, ?_, ?_⟩
      · simp only [plainASCII, Bool.and_eq_true, decide_eq_true_eq, bne_iff_ne, ne_eq]
        refine ⟨⟨hp, ?_⟩, ?_⟩
        · intro e; apply c1; left; rw [e]; rfl
        · intro e; apply c1; right; rw [e]; rfl
      · unfold encodeArith
        rw [if_pos (by omega), byte_val]
    rw [if_neg c2]
    have hnp : ¬ (0x20 ≤ b0.val ∧ b0.val ≤ 0x7E) := fun hh => c2 ((isPrint_ascii T b0.val h).2 hh)
    by_cases c3 : b0.val = 0x07
    · left; rw [if_pos c3]
      have : b0 = 0x07 := Fin.ext c3
      exact ⟨rfl, _, by rw [this]; rfl, rfl⟩
    rw [if_neg c3]
    by_cases c4 : b0.val = 0x08
    · left; rw [if_pos c4]
      have : b0 = 0x08 := Fin.ext c4
      exact ⟨rfl, _, by rw [this]; rfl, rfl⟩
    rw [if_neg c4]
    by_cases c5 : b0.val = 0x0C
    · left; rw [if_pos c5]
      have : b0 = 0x0C := Fin.ext c5
      exact ⟨rfl, _, by rw [this]; rfl, rfl⟩
    rw [if_neg c5]
    by_cases c6 : b0.val = 0x0A
    · left; rw [if_pos c6]
      have : b0 = 0x0A := Fin.ext c6
      exact ⟨rfl, _, by rw [this]; rfl, rfl⟩
    rw [if_neg c6]
    by_cases c7 : b0.val = 0x0D
    · left; rw [if_pos c7]
      have : b0 = 0x0D := Fin.ext c7
      exact ⟨rfl, _, by rw [this]; rfl, rfl⟩
    rw [if_neg c7]
    by_cases c8 : b0.val = 0x09
    · left; rw [if_pos c8]
      have : b0 = 0x09 := Fin.ext c8
      exact ⟨rfl, _, by rw [this]; rfl, rfl⟩
    rw [if_neg c8]
    by_cases c9 : b0.val = 0x0B
    · left; rw [if_pos c9]
      have : b0 = 0x0B := Fin.ext c9
      exact ⟨rfl, _, by rw [this]; rfl, rfl⟩
    rw [if_neg c9]
    right; left
    rw [if_pos (by omega), byte_val]
    exact ⟨rfl, rfl⟩
  · have h80 : 0x80 ≤ b0.val := by omega
    have hh : headRune b0 rest = utf8.DecodeRuneInString (b0 :: rest) := by
      unfold headRune utf8.RuneSelf
      rw [if_pos h80]
    unfold roundBytes
    rw [hh]
    rcases decode_cases b0 rest h80 with e | ⟨r, w, e, hw, -, hr1, hr2, hr3, henc⟩
    · right; left
      rw [e]
      exact ⟨rfl, by rw [if_pos ⟨rfl, rfl⟩]⟩
    · right; right; right
      rw [e]
      refine ⟨r, hr1, hr2, hr3, henc, ?_⟩
      simp only
      rw [if_neg (by omega), escaped_eq, if_neg (by omega)]
      by_cases c2 : strconv.IsPrint T r = true
      · left; rw [if_pos c2]; exact ⟨c2, rfl⟩
      right
      rw [if_neg c2, if_neg (by omega), if_neg (by omega), if_neg (by omega), if_neg (by omega),
        if_neg (by omega), if_neg (by omega), if_neg (by omega), if_neg (by omega)]
      have hv : utf8.ValidRune r = true := by
        unfold utf8.ValidRune utf8.surrogateMin utf8.surrogateMax utf8.MaxRune
        by_cases c : r < 0xD800
        · rw [if_pos c]
        · rw [if_neg c, if_pos (by omega)]
      rw [if_neg (by simp [hv])]
      by_cases c3 : r < 0x10000
      · left; rw [if_pos c3]; exact ⟨c3, rfl⟩
      · right; rw [if_neg c3]; exact ⟨by omega, rfl⟩


theorem lowerhex_digit (i : Nat) (h : i < 16) :
    plainASCII (strconv.lowerhex i) = true ∧ hexVal (strconv.lowerhex i) = some i := by
  interval_cases i <;> exact ⟨rfl, rfl⟩

theorem plainASCII_iff (b : Byte) :
    plainASCII b = true ↔ (0x20 ≤ b.val ∧ b.val ≤ 0x7E) ∧ b ≠ 0x22 ∧ b ≠ 0x5C := by
  simp only [plainASCII, Bool.and_eq_true, decide_eq_true_eq, bne_iff_ne, ne_eq]
  tauto

theorem hexDigits_plain (r k : Nat) : ∀ b ∈ strconv.hexDigits r k, plainASCII b = true := by
  induction k with
  | zero =>
    intro b hb
    simp only [strconv.hexDigits, List.mem_singleton] at hb
    rw [hb, and_0xF]
    exact (lowerhex_digit _ (Nat.mod_lt _ (by decide))).1
  | succ k ih =>
    intro b hb
    simp only [strconv.hexDigits, List.mem_cons] at hb
    rcases hb with hb | hb
    · rw [hb, and_0xF]
      exact (lowerhex_digit _ (Nat.mod_lt _ (by decide))).1
    · exact ih b hb

theorem hexDigits_3 (r : Nat) :
    strconv.hexDigits r 3 =
      [strconv.lowerhex (r / 4096 % 16), strconv.lowerhex (r / 256 % 16),
        strconv.lowerhex (r / 16 % 16), strconv.lowerhex (r % 16)] := by
  simp only [strconv.hexDigits, and_0xF, Nat.shiftRight_eq_div_pow]

theorem hexDigits_7 (r : Nat) :
    strconv.hexDigits r 7 =
      [strconv.lowerhex (r / 268435456 % 16), strconv.lowerhex (r / 16777216 % 16),
        strconv.lowerhex (r / 1048576 % 16), strconv.lowerhex (r / 65536 % 16),
        strconv.lowerhex (r / 4096 % 16), strconv.lowerhex (r / 256 % 16),
        strconv.lowerhex (r / 16 % 16), strconv.lowerhex (r % 16)] := by
  simp only [strconv.hexDigits, and_0xF, Nat.shiftRight_eq_div_pow]

theorem byte_val_of (x : Nat) : (byte x).val = x % 256 := rfl

theorem encode_high (r : Nat) (h : 0x80 ≤ r) : ∀ b ∈ encodeArith r, 0x80 ≤ b.val := by
  intro b hb
  unfold encodeArith at hb
  rw [if_neg (by omega)] at hb
  split_ifs at hb with h1 h2 h3
  · simp only [List.mem_cons, List.mem_singleton, List.not_mem_nil, or_false] at hb
    rcases hb with hb | hb <;> rw [hb, byte_val_of] <;> omega
  · simp only [List.mem_cons, List.mem_singleton, List.not_mem_nil, or_false] at hb
    rcases hb with hb | hb | hb <;> rw [hb] <;> decide
  · simp only [List.mem_cons, List.mem_singleton, List.not_mem_nil, or_false] at hb
    rcases hb with hb | hb | hb <;> rw [hb, byte_val_of] <;> omega
  · simp only [List.mem_cons, List.mem_singleton, List.not_mem_nil, or_false] at hb
    rcases hb with hb | hb | hb | hb <;> rw [hb, byte_val_of] <;> omega

theorem simpleEscape_letter (b e : Byte) (h : simpleEscape b = some e) :
    0x20 ≤ e.val ∧ e.val ≤ 0x7E ∧ simpleUnescape e = some b := by
  unfold simpleEscape at h
  split_ifs at h with h1 h2 h3 h4 h5 h6 h7 h8 h9 <;>
    simp only [Option.some.injEq] at h <;> subst h <;> subst_vars <;> decide


theorem decodeArith_append_ascii (a0 b : Byte) (pre post : GoString) (hb : b.val < 0x80) :
    decodeArith (a0 :: (pre ++ b :: post)) = decodeArith (a0 :: pre) := by
  have nb : ¬ (0x80 ≤ b.val) := by omega
  simp only [decodeArith]
  by_cases h1 : a0.val < 0x80
  · simp only [if_pos h1]
  simp only [if_neg h1]
  by_cases h2 : a0.val < 0xC2
  · simp only [if_pos h2]
  simp only [if_neg h2]
  by_cases h3 : a0.val < 0xE0
  · simp only [if_pos h3]
    rcases pre with _ | ⟨p1, t⟩
    · simp only [List.nil_append, nb, false_and, if_false]
    · rfl
  simp only [if_neg h3]
  by_cases h4 : a0.val < 0xF0
  · simp only [if_pos h4]
    rcases pre with _ | ⟨p1, _ | ⟨p2, t⟩⟩
    · rcases post with _ | ⟨q1, t⟩
      · rfl
      · simp only [List.nil_append]
        rw [if_neg (by split_ifs <;> omega)]
    · simp only [List.cons_append, List.nil_append, nb, false_and, and_false, if_false]
    · rfl
  simp only [if_neg h4]
  by_cases h5 : a0.val < 0xF5
  · simp only [if_pos h5]
    rcases pre with _ | ⟨p1, _ | ⟨p2, _ | ⟨p3, t⟩⟩⟩
    · rcases post with _ | ⟨q1, _ | ⟨q2, t⟩⟩
      · rfl
      · rfl
      · simp only [List.nil_append]
        rw [if_neg (by split_ifs <;> omega)]
    · rcases post with _ | ⟨q1, t⟩
      · rfl
      · simp only [List.cons_append, List.nil_append, nb, false_and, and_false, if_false]
    · simp only [List.cons_append, List.nil_append, nb, false_and, and_false, if_false]
    · rfl
  · simp only [if_neg h5]

theorem headRune_append_ascii (a0 b : Byte) (pre post : GoString) (hb : b.val < 0x80) :
    headRune a0 (pre ++ b :: post) = headRune a0 pre := by
  unfold headRune
  rw [decode_eq, decode_eq, decodeArith_append_ascii a0 b pre post hb]

theorem quoteBody_append_ascii (T : Tables) (b : Byte) (post : GoString) (hb : b.val < 0x80) :
    ∀ pre : GoString, quoteBody T (pre ++ b :: post) = quoteBody T pre ++ quoteBody T (b :: post) := by
  apply quote_induction
  · rw [quoteBody_nil]; rfl
  · intro a0 pre ih
    rw [List.cons_append, quoteBody_cons, quoteBody_cons T a0 pre]
    have hr : roundBytes T a0 (pre ++ b :: post) = roundBytes T a0 pre := by
      unfold roundBytes
      rw [headRune_append_ascii a0 b pre post hb]
    rw [hr, headRune_append_ascii a0 b pre post hb, List.append_assoc, ← ih,
      ← List.cons_append, List.drop_append_of_le_length (headRune_width_le a0 pre)]

theorem decode_encode (r : Nat) (h1 : 0x80 ≤ r) (h2 : r ≤ 0x10FFFF)
    (h3 : ¬ (0xD800 ≤ r ∧ r ≤ 0xDFFF)) (t : GoString) :
    utf8.DecodeRuneInString (encodeArith r ++ t) = (r, (encodeArith r).length) := by
  rw [decode_eq]
  unfold encodeArith
  rw [if_neg (by omega)]
  by_cases c2 : r ≤ 2047
  · rw [if_pos c2]
    simp only [List.cons_append, List.nil_append, decodeArith, byte_val_of, List.length_cons,
      List.length_nil]
    rw [if_neg (by omega), if_neg (by omega), if_pos (by omega), if_pos (by omega)]
    congr 1
    omega
  rw [if_neg c2, if_neg (by omega)]
  by_cases c3 : r ≤ 65535
  · rw [if_pos c3]
    simp only [List.cons_append, List.nil_append, decodeArith, byte_val_of, List.length_cons,
      List.length_nil]
    rw [if_neg (by omega), if_neg (by omega), if_neg (by omega), if_pos (by omega),
      if_pos (by split_ifs <;> omega)]
    congr 1
    omega
  · rw [if_neg c3]
    simp only [List.cons_append, List.nil_append, decodeArith, byte_val_of, List.length_cons,
      List.length_nil]
    rw [if_neg (by omega), if_neg (by omega), if_neg (by omega), if_neg (by omega),
      if_pos (by omega), if_pos (by split_ifs <;> omega)]
    congr 1
    omega

theorem runes_nil : runes [] = [] := by
  rw [runes]

theorem runes_cons_ascii (b : Byte) (t : GoString) (h : b.val < 0x80) :
    runes (b :: t) = b.val :: runes t := by
  rw [runes, decode_ascii b t h]
  rfl

theorem runes_ascii (c t : GoString) (h : ∀ b ∈ c, b.val < 0x80) :
    runes (c ++ t) = c.map (fun b => b.val) ++ runes t := by
  induction c with
  | nil => rfl
  | cons b c ih =>
    rw [List.cons_append, runes_cons_ascii b _ (h b (List.mem_cons_self _ _)),
      ih (fun x hx => h x (List.mem_cons_of_mem _ hx))]
    rfl

theorem encodeArith_ne_nil (r : Nat) : encodeArith r ≠ [] := by
  unfold encodeArith
  split_ifs <;> simp

theorem runes_encode (r : Nat) (h1 : 0x80 ≤ r) (h2 : r ≤ 0x10FFFF)
    (h3 : ¬ (0xD800 ≤ r ∧ r ≤ 0xDFFF)) (t : GoString) :
    runes (encodeArith r ++ t) = r :: runes t := by
  have hd := decode_encode r h1 h2 h3 t
  rcases hc : encodeArith r with _ | ⟨c0, cs⟩
  · exact absurd hc (encodeArith_ne_nil r)
  · rw [hc] at hd
    rw [List.cons_append] at hd ⊢
    rw [runes, hd, ← List.cons_append, List.drop_left]

/-- What one round of the quoting loop writes is an escape (a backslash, a letter
and possibly hexadecimal digits), or the byte itself when it is a plain printable
ASCII character, or the encoding of a printable rune beyond ASCII. -/
theorem roundBytes_coarse (T : Tables) (b0 : Byte) (rest : GoString) :
    (∃ e ds, roundBytes T b0 rest = 0x5C :: e :: ds ∧ (0x20 ≤ e.val ∧ e.val ≤ 0x7E) ∧
      ∀ b ∈ ds, plainASCII b = true) ∨
    (plainASCII b0 = true ∧ roundBytes T b0 rest = [b0]) ∨
    (∃ r, 0x80 ≤ r ∧ r ≤ 0x10FFFF ∧ ¬ (0xD800 ≤ r ∧ r ≤ 0xDFFF) ∧
      strconv.IsPrint T r = true ∧ roundBytes T b0 rest = encodeArith r) := by
  rcases roundBytes_shape T b0 rest with ⟨-, e, he, h⟩ | ⟨-, h⟩ | ⟨-, hp, h⟩ |
    ⟨r, h1, h2, h3, -, ⟨hp, h⟩ | ⟨-, h⟩ | ⟨-, h⟩⟩
  · left
    exact ⟨e, [], h, ⟨(simpleEscape_letter b0 e he).1, (simpleEscape_letter b0 e he).2.1⟩,
      by simp⟩
  · left
    refine ⟨0x78, _, h, by decide, ?_⟩
    intro b hb
    simp only [List.mem_cons, List.mem_singleton, List.not_mem_nil, or_false] at hb
    have hlt := b0.isLt
    rcases hb with hb | hb
    · rw [hb]
      exact (lowerhex_digit _ (by rw [Nat.shiftRight_eq_div_pow]; omega)).1
    · rw [hb, and_0xF]
      exact (lowerhex_digit _ (Nat.mod_lt _ (by decide))).1
  · right; left
    exact ⟨hp, h⟩
  · right; right
    exact ⟨r, h1, h2, h3, hp, h⟩
  · left
    exact ⟨0x75, _, h, by decide, hexDigits_plain r 3⟩
  · left
    exact ⟨0x55, _, h, by decide, hexDigits_plain r 7⟩

theorem wellEscaped_esc (e : Byte) (t : GoString) :
    wellEscaped (0x5C :: e :: t) = wellEscaped t := by
  rw [wellEscaped.eq_def]
  simp only [if_pos]

theorem wellEscaped_cons_quiet (b : Byte) (t : GoString) (h1 : b ≠ 0x5C) (h2 : b ≠ 0x22) :
    wellEscaped (b :: t) = wellEscaped t := by
  rw [wellEscaped.eq_def]
  simp only [if_neg h1]
  simp [h2]

theorem wellEscaped_quiet (c t : GoString) (h : ∀ b ∈ c, b ≠ 0x5C ∧ b ≠ 0x22) :
    wellEscaped (c ++ t) = wellEscaped t := by
  induction c with
  | nil => rfl
  | cons b c ih =>
    have hb := h b (List.mem_cons_self _ _)
    rw [List.cons_append, wellEscaped_cons_quiet _ _ hb.1 hb.2,
      ih (fun x hx => h x (List.mem_cons_of_mem _ hx))]

theorem plain_quiet (ds : GoString) (h : ∀ b ∈ ds, plainASCII b = true) :
    ∀ b ∈ ds, b ≠ 0x5C ∧ b ≠ 0x22 := by
  intro b hb
  have := (plainASCII_iff b).1 (h b hb)
  exact ⟨this.2.2, this.2.1⟩

theorem high_quiet (ds : GoString) (h : ∀ b ∈ ds, 0x80 ≤ b.val) :
    ∀ b ∈ ds, b ≠ 0x5C ∧ b ≠ 0x22 := by
  intro b hb
  have := h b hb
  constructor
  · rintro rfl; revert this; decide
  · rintro rfl; revert this; decide

theorem isPrint_not_control (T : Tables) (r : Nat) (h1 : 0x80 ≤ r)
    (hp : strconv.IsPrint T r = true) : isControl r = false := by
  unfold strconv.IsPrint at hp
  unfold isControl
  by_cases c : r ≤ 0xFF
  · rw [if_pos c, if_neg (by omega)] at hp
    by_cases c2 : 0xA1 ≤ r ∧ r ≤ 0xFF
    · have : ¬ r < 0x20 := by omega
      have : ¬ r ≤ 0x9F := by omega
      simp [*]
    · rw [if_neg c2] at hp
      exact absurd hp (by simp)
  · have : ¬ r < 0x20 := by omega
    have : ¬ r ≤ 0x9F := by omega
    simp [*]

/-- No byte of a quoted body is an ASCII control character. -/
theorem quoteBody_visible (T : Tables) :
    ∀ v : GoString, ∀ b ∈ quoteBody T v, 0x20 ≤ b.val ∧ b.val ≠ 0x7F := by
  apply quote_induction
  · intro b hb
    rw [quoteBody_nil] at hb
    exact absurd hb (List.not_mem_nil _)
  · intro b0 rest ih b hb
    rw [quoteBody_cons, List.mem_append] at hb
    rcases hb with hb | hb
    · rcases roundBytes_coarse T b0 rest with ⟨e, ds, h, he, hds⟩ | ⟨hp, h⟩ |
        ⟨r, h1, h2, h3, hp, h⟩
      · rw [h] at hb
        simp only [List.mem_cons] at hb
        rcases hb with hb | hb | hb
        · rw [hb]; decide
        · rw [hb]; omega
        · have := (plainASCII_iff b).1 (hds b hb)
          omega
      · rw [h, List.mem_singleton] at hb
        have := (plainASCII_iff b0).1 hp
        rw [hb]; omega
      · rw [h] at hb
        have := encode_high r h1 b hb
        omega
    · exact ih b hb

/-- A quoted body is escaped throughout. -/
theorem quoteBody_wellEscaped (T : Tables) : ∀ v : GoString, wellEscaped (quoteBody T v) = true := by
  apply quote_induction
  · rw [quoteBody_nil]; rfl
  · intro b0 rest ih
    rw [quoteBody_cons]
    rcases roundBytes_coarse T b0 rest with ⟨e, ds, h, he, hds⟩ | ⟨hp, h⟩ |
      ⟨r, h1, h2, h3, hp, h⟩
    · rw [h, List.cons_append, List.cons_append, wellEscaped_esc,
        wellEscaped_quiet _ _ (plain_quiet ds hds), ih]
    · rw [h, wellEscaped_quiet _ _ (plain_quiet [b0] (by simpa using hp)), ih]
    · rw [h, wellEscaped_quiet _ _ (high_quiet _ (encode_high r h1)), ih]

/-- No character of a quoted body is a control character. -/
theorem quoteBody_no_control (T : Tables) :
    ∀ v : GoString, ∀ c ∈ runes (quoteBody T v), isControl c = false := by
  have key : ∀ ds : GoString, (∀ b ∈ ds, 0x20 ≤ b.val ∧ b.val ≤ 0x7E) →
      ∀ c ∈ ds.map (fun b => b.val), isControl c = false := by
    intro ds h c hc
    rw [List.mem_map] at hc
    obtain ⟨b, hb, rfl⟩ := hc
    have := h b hb
    unfold isControl
    have : ¬ b.val < 0x20 := by omega
    have : ¬ 0x7F ≤ b.val := by omega
    simp [*]
  apply quote_induction
  · intro c hc
    rw [quoteBody_nil, runes_nil] at hc
    exact absurd hc (List.not_mem_nil _)
  · intro b0 rest ih c hc
    rw [quoteBody_cons] at hc
    rcases roundBytes_coarse T b0 rest with ⟨e, ds, h, he, hds⟩ | ⟨hp, h⟩ |
      ⟨r, h1, h2, h3, hp, h⟩
    · have hall : ∀ b ∈ (0x5C : Byte) :: e :: ds, 0x20 ≤ b.val ∧ b.val ≤ 0x7E := by
        intro b hb
        simp only [List.mem_cons] at hb
        rcases hb with hb | hb | hb
        · rw [hb]; decide
        · rw [hb]; exact he
        · exact ((plainASCII_iff b).1 (hds b hb)).1
      rw [h, runes_ascii _ _ (fun b hb => by have := hall b hb; omega), List.mem_append] at hc
      rcases hc with hc | hc
      · exact key _ hall c hc
      · exact ih c hc
    · have hall : ∀ b ∈ [b0], 0x20 ≤ b.val ∧ b.val ≤ 0x7E := by
        intro b hb
        rw [List.mem_singleton] at hb
        rw [hb]
        exact ((plainASCII_iff b0).1 hp).1
      rw [h, runes_ascii _ _ (fun b hb => by have := hall b hb; omega), List.mem_append] at hc
      rcases hc with hc | hc
      · exact key _ hall c hc
      · exact ih c hc
    · rw [h, runes_encode r h1 h2 h3, List.mem_cons] at hc
      rcases hc with hc | hc
      · rw [hc]; exact isPrint_not_control T r h1 hp
      · exact ih c hc

theorem Quote_visible (T : Tables) (v : GoString) :
    ∀ b ∈ strconv.Quote T v, 0x20 ≤ b.val ∧ b.val ≠ 0x7F := by
  intro b hb
  rw [Quote_eq] at hb
  simp only [List.mem_cons, List.mem_append, List.mem_singleton, List.not_mem_nil, or_false] at hb
  rcases hb with (hb | hb) | hb
  · rw [hb]; decide
  · exact quoteBody_visible T v b hb
  · rw [hb]; decide

theorem Quote_no_newline (T : Tables) (v : GoString) : (0x0A : Byte) ∉ strconv.Quote T v := by
  intro h
  have := Quote_visible T v _ h
  revert this
  decide


theorem quoteBody_escapes (T : Tables) (pre post : GoString) (b : Byte)
    (hb : b = 0x22 ∨ b = 0x5C) :
    quoteBody T (pre ++ b :: post) = quoteBody T pre ++ [0x5C, b] ++ quoteBody T post := by
  have hlt : b.val < 0x80 := by
    rcases hb with rfl | rfl <;> decide
  rw [quoteBody_append_ascii T b post hlt, quoteBody_cons_ascii T b post hlt, escaped_eq,
    byte_val, List.append_assoc]
  have hc : b.val = 0x22 ∨ b.val = 0x5C := by
    rcases hb with rfl | rfl
    · left; rfl
    · right; rfl
  rw [if_pos hc]

/-! ## C7: the quoted value -/

/-- C7: the rendering of a value in a printed line is `Quote` of the value; it
begins and ends with a double quote; every double quote and every backslash of
the value stands in it behind an escaping backslash; the text between the two
delimiters is escaped throughout, so it has no double quote of its own; no byte of
it is an ASCII control character and no character of it is a control character;
and the rendering holds no newline, no carriage return and no tab. -/
theorem quoted_value_is_escaped (T : Tables) (value : GoString) :
    (∀ key : GoString, fmt.Sprintf T lineFormat [key, value] =
      key ++ [0x20, 0x3D, 0x20] ++ strconv.Quote T value ++ [0x0A]) ∧
    strconv.Quote T value = [0x22] ++ quoteBody T value ++ [0x22] ∧
    (∀ (pre post : GoString) (b : Byte), (b = 0x22 ∨ b = 0x5C) → value = pre ++ b :: post →
      quoteBody T value = quoteBody T pre ++ [0x5C, b] ++ quoteBody T post) ∧
    wellEscaped (quoteBody T value) = true ∧
    (∀ b ∈ quoteBody T value, ¬ (b.val < 0x20 ∨ b.val = 0x7F)) ∧
    (∀ c ∈ runes (quoteBody T value), isControl c = false) ∧
    (0x0A : Byte) ∉ strconv.Quote T value ∧ (0x0D : Byte) ∉ strconv.Quote T value ∧
    (0x09 : Byte) ∉ strconv.Quote T value := by
  refine ⟨fun key => by rw [Sprintf_lineFormat]; rfl, by rw [Quote_eq]; rfl, ?_,
    quoteBody_wellEscaped T value, ?_, quoteBody_no_control T value, Quote_no_newline T value,
    ?_, ?_⟩
  · intro pre post b hb hv
    rw [hv]
    exact quoteBody_escapes T pre post b hb
  · intro b hb
    have := quoteBody_visible T value b hb
    omega
  · intro h
    have := Quote_visible T value _ h
    revert this
    decide
  · intro h
    have := Quote_visible T value _ h
    revert this
    decide

/-! ## C4: the test on the key -/

theorem runes_take_cons_ascii (b0 : Byte) (rest : GoString) (n c : Nat) (cs : List Nat)
    (hc : c < 0x80) (h : (runes (b0 :: rest)).take (n + 1) = c :: cs) :
    b0.val = c ∧ (runes rest).take n = cs := by
  by_cases hb : b0.val < 0x80
  · rw [runes_cons_ascii b0 rest hb, List.take_succ_cons, List.cons.injEq] at h
    exact h
  · rw [runes, List.take_succ_cons, List.cons.injEq] at h
    rcases decode_cases b0 rest (by omega) with e | ⟨r, w, e, -, -, hr, -⟩
    · rw [e] at h
      have := h.1
      simp only [utf8.RuneError] at this
      omega
    · rw [e] at h
      have := h.1
      simp only at this
      omega

theorem runes_take_vcs (key : GoString) :
    (runes key).take 3 = [0x76, 0x63, 0x73] ↔ startsWith vcs key = true := by
  rw [startsWith_iff]
  constructor
  · intro h
    rcases key with _ | ⟨b1, _ | ⟨b2, _ | ⟨b3, rest⟩⟩⟩
    · rw [runes_nil] at h
      exact absurd h (by simp)
    · obtain ⟨-, h2⟩ := runes_take_cons_ascii b1 [] 2 _ _ (by decide) h
      rw [runes_nil] at h2
      exact absurd h2 (by simp)
    · obtain ⟨-, h2⟩ := runes_take_cons_ascii b1 _ 2 _ _ (by decide) h
      obtain ⟨-, h3⟩ := runes_take_cons_ascii b2 _ 1 _ _ (by decide) h2
      rw [runes_nil] at h3
      exact absurd h3 (by simp)
    · obtain ⟨e1, h2⟩ := runes_take_cons_ascii b1 _ 2 _ _ (by decide) h
      obtain ⟨e2, h3⟩ := runes_take_cons_ascii b2 _ 1 _ _ (by decide) h2
      obtain ⟨e3, -⟩ := runes_take_cons_ascii b3 _ 0 _ _ (by decide) h3
      refine ⟨rest, ?_⟩
      have : b1 = 0x76 := Fin.ext e1
      have : b2 = 0x63 := Fin.ext e2
      have : b3 = 0x73 := Fin.ext e3
      subst_vars
      rfl
  · rintro ⟨rest, rfl⟩
    have hv : ∀ b ∈ vcs, b.val < 0x80 := by
      intro b hb
      simp only [vcs, List.mem_cons, List.mem_singleton, List.not_mem_nil, or_false] at hb
      rcases hb with rfl | rfl | rfl <;> decide
    rw [runes_ascii vcs rest hv]
    rfl

/-- C4: the test the code makes on a key (at least three bytes, the first three
equal to `vcs`) holds exactly when the first three characters of the key, decoded
as UTF-8, are `v`, `c`, `s`, for every key; this is the same as the key being
`vcs` followed by anything; the settings printed are exactly those whose key
passes the test, each with its line, in order; and the key `nonvcs.tool`, which
has `vcs` at a later position only, is not printed. -/
theorem printed_iff_key_starts_with_vcs :
    (∀ (key : GoString) (p : Proc),
      (keyCond key p).1 = .ok (decide ((runes key).take 3 = [0x76, 0x63, 0x73]))) ∧
    (∀ key : GoString,
      (3 ≤ key.length ∧ key.take 3 = vcs) ↔ (runes key).take 3 = [0x76, 0x63, 0x73]) ∧
    (∀ key : GoString,
      (runes key).take 3 = [0x76, 0x63, 0x73] ↔ ∃ rest, key = vcs ++ rest) ∧
    (∀ (T : Tables) (bi : BuildInfo),
      (main T (some bi)).2.stdout = bi.Main.Version ++ [0x0A] ++
        (bi.Settings.filter
          (fun s => decide ((runes s.Key).take 3 = [0x76, 0x63, 0x73]))).flatMap
            (renderLine T)) ∧
    (∃ a b : GoString, a ≠ [] ∧ keyNonvcsTool = a ++ vcs ++ b) ∧
    (runes keyNonvcsTool).take 3 ≠ [0x76, 0x63, 0x73] ∧
    (∀ (T : Tables) (version value : GoString),
      (main T (some (infoOf version [⟨keyNonvcsTool, value⟩]))).2.stdout = version ++ [0x0A]) := by
  have hdec : ∀ key : GoString,
      decide ((runes key).take 3 = [0x76, 0x63, 0x73]) = startsWith vcs key := by
    intro key
    rw [Bool.eq_iff_iff, decide_eq_true_eq]
    exact runes_take_vcs key
  have hnon : startsWith vcs keyNonvcsTool = false := by decide
  refine ⟨?_, ?_, ?_, ?_, ⟨[0x6E, 0x6F, 0x6E], [0x2E, 0x74, 0x6F, 0x6F, 0x6C], by simp, rfl⟩,
    ?_, ?_⟩
  · intro key p
    rw [keyCond_eq, hdec]
  · intro key
    rw [runes_take_vcs, startsWith_vcs_eq]
    simp
  · intro key
    rw [runes_take_vcs, startsWith_iff]
  · intro T bi
    rw [main_some]
    simp only [hdec]
  · intro h
    rw [runes_take_vcs, hnon] at h
    exact absurd h (by simp)
  · intro T version value
    rw [main_some]
    simp [infoOf, moduleOf, Module.Version, List.filter_cons, hnon]

/-! ## C8: the lines of the output -/

theorem splitLines_line (l : GoString) (h : (0x0A : Byte) ∉ l) (cur rest : GoString) :
    splitLines cur (l ++ 0x0A :: rest) = (cur ++ l) :: splitLines [] rest := by
  induction l generalizing cur with
  | nil => simp [splitLines]
  | cons a l ih =>
    have ha : a ≠ 0x0A := fun e => h (by simp [e])
    have hl : (0x0A : Byte) ∉ l := fun e => h (by simp [e])
    rw [List.cons_append, splitLines, if_neg ha, ih hl]
    simp

theorem lines_terminated (ls : List GoString) (h : ∀ l ∈ ls, (0x0A : Byte) ∉ l) :
    lines ((ls.map (fun l => l ++ [0x0A])).flatten) = ls := by
  unfold lines
  induction ls with
  | nil => rfl
  | cons l ls ih =>
    rw [List.map_cons, List.flatten_cons, List.append_assoc, List.singleton_append,
      splitLines_line l (h l (List.mem_cons_self _ _)),
      ih (fun x hx => h x (List.mem_cons_of_mem _ hx))]
    rfl

theorem stdout_pieces (T : Tables) (bi : BuildInfo) :
    (main T (some bi)).2.stdout =
      ((bi.Main.Version ::
        (bi.Settings.filter (fun s => startsWith vcs s.Key)).map (lineText T)).map
          (fun l => l ++ [0x0A])).flatten := by
  rw [main_some]
  simp only [List.map_cons, List.flatten_cons, List.map_map]
  congr 1

theorem flatten_terminated_getLast (l : GoString) (ls : List GoString) :
    (((l :: ls).map (fun l => l ++ [0x0A])).flatten).getLast? = some 0x0A := by
  induction ls generalizing l with
  | nil => simp
  | cons m ls ih =>
    rw [List.map_cons, List.flatten_cons, List.getLast?_append, ih m]
    rfl

theorem renderLine_plain (T : Tables) (key value : GoString)
    (hv : value.all plainASCII = true) :
    renderLine T ⟨key, value⟩ = key ++ [0x20, 0x3D, 0x20, 0x22] ++ value ++ [0x22, 0x0A] := by
  simp [renderLine, Quote_eq, quoteBody_plain T value (List.all_eq_true.1 hv)]

/-- C8 as stated fails: it is claimed for every version and every key, but a
newline inside the version or inside a printed key splits a line.  With the
version `a`, newline, `b` and no settings the output has two newline-terminated
lines where the claim counts one; with the key `vcs`, newline, `x` it has three
where the claim counts two. -/
theorem line_count_off_with_newline_in_version_or_key :
    (lines (main sampleTables (some (infoOf versionWithNewline []))).2.stdout).length ≠
      1 + (([] : List BuildSetting).filter (fun s => startsWith vcs s.Key)).length ∧
    lines (main sampleTables (some (infoOf versionWithNewline []))).2.stdout =
      [[0x61], [0x62]] ∧
    (lines (main sampleTables
        (some (infoOf versionV123 [⟨keyVcsNewlineX, valueAbc123⟩]))).2.stdout).length ≠
      1 + (([⟨keyVcsNewlineX, valueAbc123⟩] : List BuildSetting).filter
        (fun s => startsWith vcs s.Key)).length ∧
    lines (main sampleTables
        (some (infoOf versionV123 [⟨keyVcsNewlineX, valueAbc123⟩]))).2.stdout =
      [versionV123, [0x76, 0x63, 0x73],
        [0x78, 0x20, 0x3D, 0x20, 0x22, 0x61, 0x62, 0x63, 0x31, 0x32, 0x33, 0x22]] := by
  have h1 : (main sampleTables (some (infoOf versionWithNewline []))).2.stdout =
      [0x61, 0x0A, 0x62, 0x0A] := by
    rw [main_some]; rfl
  have hk : startsWith vcs keyVcsNewlineX = true := rfl
  have h2 : (main sampleTables
      (some (infoOf versionV123 [⟨keyVcsNewlineX, valueAbc123⟩]))).2.stdout =
      versionV123 ++ [0x0A] ++
        (keyVcsNewlineX ++ [0x20, 0x3D, 0x20, 0x22] ++ valueAbc123 ++ [0x22, 0x0A]) := by
    rw [main_some]
    simp only [infoOf, List.filter_cons, hk, if_true, List.filter_nil, List.flatMap_cons,
      List.flatMap_nil, List.append_nil, renderLine_plain sampleTables keyVcsNewlineX valueAbc123 rfl]
    rfl
  rw [h1, h2]
  decide

/-- C8, amended: the output is always the version and then one line text per
setting whose key starts with `vcs`, each followed by a newline, so it always ends
with a newline; and when neither the version nor any such key holds a newline,
its newline-terminated lines are exactly these 1 + k texts. -/
theorem output_lines (T : Tables) (bi : BuildInfo) :
    (main T (some bi)).2.stdout =
      ((bi.Main.Version ::
        (bi.Settings.filter (fun s => startsWith vcs s.Key)).map (lineText T)).map
          (fun l => l ++ [0x0A])).flatten ∧
    (main T (some bi)).2.stdout.getLast? = some 0x0A ∧
    ((0x0A : Byte) ∉ bi.Main.Version →
      (∀ s ∈ bi.Settings, startsWith vcs s.Key = true → (0x0A : Byte) ∉ s.Key) →
      lines (main T (some bi)).2.stdout =
        bi.Main.Version ::
          (bi.Settings.filter (fun s => startsWith vcs s.Key)).map (lineText T) ∧
      (lines (main T (some bi)).2.stdout).length =
        1 + (bi.Settings.filter (fun s => startsWith vcs s.Key)).length) := by
  refine ⟨stdout_pieces T bi, ?_, ?_⟩
  · rw [stdout_pieces]
    exact flatten_terminated_getLast _ _
  · intro hv hk
    have hl : lines (main T (some bi)).2.stdout =
        bi.Main.Version ::
          (bi.Settings.filter (fun s => startsWith vcs s.Key)).map (lineText T) := by
      rw [stdout_pieces]
      apply lines_terminated
      intro l hl
      rw [List.mem_cons] at hl
      rcases hl with rfl | hl
      · exact hv
      · rw [List.mem_map] at hl
        obtain ⟨s, hs, rfl⟩ := hl
        rw [List.mem_filter] at hs
        have h1 := hk s hs.1 hs.2
        have h2 := Quote_no_newline T s.Value
        intro hm
        simp only [lineText, List.mem_append, List.mem_cons, List.not_mem_nil, or_false] at hm
        rcases hm with (hm | hm) | hm
        · exact h1 hm
        · revert hm; decide
        · exact h2 hm
    refine ⟨hl, ?_⟩
    rw [hl, List.length_cons, List.length_map]
    omega

/-- C8, amended, at the version `v1.2.3` with the settings `vcs.revision` and
`nonvcs.tool`: two lines. -/
theorem output_lines_witness :
    (0x0A : Byte) ∉ versionV123 ∧
    lines (main sampleTables (some (infoOf versionV123
        [⟨keyVcsRevision, valueAbc123⟩, ⟨keyNonvcsTool, valueAbc123⟩]))).2.stdout =
      [versionV123, lineText sampleTables ⟨keyVcsRevision, valueAbc123⟩] :=
  ⟨by decide,
   ((output_lines sampleTables (infoOf versionV123
      [⟨keyVcsRevision, valueAbc123⟩, ⟨keyNonvcsTool, valueAbc123⟩])).2.2 (by decide)
      (by
        intro s hs _
        simp only [infoOf, List.mem_cons, List.mem_singleton, List.not_mem_nil, or_false] at hs
        rcases hs with rfl | rfl <;> decide)).1⟩


theorem unquoteBody_cons_quiet (b : Byte) (t : GoString) (h1 : b ≠ 0x5C) (h2 : b ≠ 0x22) :
    unquoteBody (b :: t) = (unquoteBody t).map (fun u => b :: u) := by
  rw [unquoteBody, if_neg h1, if_neg h2]

theorem unquoteBody_quiet (c t : GoString) (h : ∀ b ∈ c, b ≠ 0x5C ∧ b ≠ 0x22) :
    unquoteBody (c ++ t) = (unquoteBody t).map (fun u => c ++ u) := by
  induction c with
  | nil => simp
  | cons b c ih =>
    have hb := h b (List.mem_cons_self _ _)
    rw [List.cons_append, unquoteBody_cons_quiet _ _ hb.1 hb.2,
      ih (fun x hx => h x (List.mem_cons_of_mem _ hx)), Option.map_map]
    rfl

theorem unquoteBody_esc (rest bs : GoString) (k : Nat) (h : unescape rest = some (bs, k)) :
    unquoteBody (0x5C :: rest) = (unquoteBody (rest.drop k)).map (fun u => bs ++ u) := by
  rw [unquoteBody, if_pos rfl, h]

theorem unquoteBody_simple (e c : Byte) (t : GoString) (he : simpleUnescape e = some c) :
    unquoteBody (0x5C :: e :: t) = (unquoteBody t).map (fun u => c :: u) := by
  have n1 : e ≠ 0x78 := by
    intro h
    have hx : simpleUnescape 0x78 = none := by decide
    rw [h, hx] at he
    exact Option.noConfusion he
  have n2 : e ≠ 0x75 := by
    intro h
    have hx : simpleUnescape 0x75 = none := by decide
    rw [h, hx] at he
    exact Option.noConfusion he
  have n3 : e ≠ 0x55 := by
    intro h
    have hx : simpleUnescape 0x55 = none := by decide
    rw [h, hx] at he
    exact Option.noConfusion he
  have hu : unescape (e :: t) = some ([c], 1) := by
    rw [unescape, if_neg n1, if_neg n2, if_neg n3, he]
    rfl
  rw [unquoteBody_esc _ _ _ hu]
  rfl

theorem unquoteBody_x (h1 h2 : Byte) (t : GoString) (n : Nat)
    (hn : hexNum 0 [h1, h2] = some n) :
    unquoteBody (0x5C :: 0x78 :: h1 :: h2 :: t) =
      (unquoteBody t).map (fun u => byte n :: u) := by
  have hu : unescape (0x78 :: h1 :: h2 :: t) = some ([byte n], 3) := by
    rw [unescape, if_pos rfl, if_neg (by simp)]
    simp only [List.take_succ_cons, List.take_zero, hn]
    rfl
  rw [unquoteBody_esc _ _ _ hu]
  rfl

theorem unquoteBody_u (h1 h2 h3 h4 : Byte) (t : GoString) (n : Nat)
    (hn : hexNum 0 [h1, h2, h3, h4] = some n) :
    unquoteBody (0x5C :: 0x75 :: h1 :: h2 :: h3 :: h4 :: t) =
      (unquoteBody t).map (fun u => encodeArith n ++ u) := by
  have hu : unescape (0x75 :: h1 :: h2 :: h3 :: h4 :: t) = some (encodeArith n, 5) := by
    rw [unescape, if_neg (by decide), if_pos rfl, if_neg (by simp)]
    simp only [List.take_succ_cons, List.take_zero, hn, appendRune_eq]
    rfl
  rw [unquoteBody_esc _ _ _ hu]
  rfl

theorem unquoteBody_U (h1 h2 h3 h4 h5 h6 h7 h8 : Byte) (t : GoString) (n : Nat)
    (hn : hexNum 0 [h1, h2, h3, h4, h5, h6, h7, h8] = some n) :
    unquoteBody (0x5C :: 0x55 :: h1 :: h2 :: h3 :: h4 :: h5 :: h6 :: h7 :: h8 :: t) =
      (unquoteBody t).map (fun u => encodeArith n ++ u) := by
  have hu : unescape (0x55 :: h1 :: h2 :: h3 :: h4 :: h5 :: h6 :: h7 :: h8 :: t) =
      some (encodeArith n, 9) := by
    rw [unescape, if_neg (by decide), if_neg (by decide), if_pos rfl, if_neg (by simp)]
    simp only [List.take_succ_cons, List.take_zero, hn, appendRune_eq]
    rfl
  rw [unquoteBody_esc _ _ _ hu]
  rfl

theorem hexNum_cons (acc i : Nat) (hi : i < 16) (t : GoString) :
    hexNum acc (strconv.lowerhex i :: t) = hexNum (acc * 16 + i) t := by
  rw [hexNum, (lowerhex_digit i hi).2, Option.some_bind]

theorem hexNum_nil (acc : Nat) : hexNum acc [] = some acc := rfl

theorem hexNum_2 (a b : Nat) (ha : a < 16) (hb : b < 16) :
    hexNum 0 [strconv.lowerhex a, strconv.lowerhex b] = some (a * 16 + b) := by
  rw [hexNum_cons _ _ ha, hexNum_cons _ _ hb, hexNum_nil, Nat.zero_mul, Nat.zero_add]

theorem hexNum_4 (r : Nat) (hr : r < 0x10000) :
    hexNum 0 [strconv.lowerhex (r / 4096 % 16), strconv.lowerhex (r / 256 % 16),
      strconv.lowerhex (r / 16 % 16), strconv.lowerhex (r % 16)] = some r := by
  rw [hexNum_cons _ _ (by omega), hexNum_cons _ _ (by omega), hexNum_cons _ _ (by omega),
    hexNum_cons _ _ (by omega), hexNum_nil]
  congr 1
  omega

theorem hexNum_8 (r : Nat) (hr : r < 0x100000000) :
    hexNum 0 [strconv.lowerhex (r / 268435456 % 16), strconv.lowerhex (r / 16777216 % 16),
      strconv.lowerhex (r / 1048576 % 16), strconv.lowerhex (r / 65536 % 16),
      strconv.lowerhex (r / 4096 % 16), strconv.lowerhex (r / 256 % 16),
      strconv.lowerhex (r / 16 % 16), strconv.lowerhex (r % 16)] = some r := by
  rw [hexNum_cons _ _ (by omega), hexNum_cons _ _ (by omega), hexNum_cons _ _ (by omega),
    hexNum_cons _ _ (by omega), hexNum_cons _ _ (by omega), hexNum_cons _ _ (by omega),
    hexNum_cons _ _ (by omega), hexNum_cons _ _ (by omega), hexNum_nil]
  congr 1
  omega

/-- Reading back what one round of the quoting loop wrote gives the bytes the
round consumed. -/
theorem unquoteBody_round (T : Tables) (b0 : Byte) (rest t : GoString) :
    unquoteBody (roundBytes T b0 rest ++ t) =
      (unquoteBody t).map (fun u => (b0 :: rest).take (headRune b0 rest).2 ++ u) := by
  have hlt := b0.isLt
  rcases roundBytes_shape T b0 rest with ⟨hw, e, he, h⟩ | ⟨hw, h⟩ | ⟨hw, hp, h⟩ |
    ⟨r, h1, h2, h3, henc, ⟨hp, h⟩ | ⟨hr, h⟩ | ⟨hr, h⟩⟩
  · rw [h, hw, List.cons_append, List.cons_append, List.nil_append,
      unquoteBody_simple e b0 t (simpleEscape_letter b0 e he).2.2]
    rfl
  · rw [h, hw, and_0xF, Nat.shiftRight_eq_div_pow]
    simp only [List.cons_append, List.nil_append]
    rw [unquoteBody_x _ _ _ _ (hexNum_2 _ _ (by omega) (by omega))]
    have : byte (b0.val / 2 ^ 4 * 16 + b0.val % 16) = b0 := byte_of_eq _ _ (by omega)
    rw [this]
    rfl
  · rw [h, hw, unquoteBody_quiet _ _ (plain_quiet [b0] (by simpa using hp))]
    rfl
  · rw [h, unquoteBody_quiet _ _ (high_quiet _ (encode_high r h1)), henc]
  · rw [h, hexDigits_3]
    simp only [List.cons_append, List.nil_append]
    rw [unquoteBody_u _ _ _ _ _ _ (hexNum_4 r hr), henc]
  · rw [h, hexDigits_7]
    simp only [List.cons_append, List.nil_append]
    rw [unquoteBody_U _ _ _ _ _ _ _ _ _ _ (hexNum_8 r (by omega)), henc]

theorem unquoteBody_quoteBody (T : Tables) : ∀ v : GoString, unquoteBody (quoteBody T v) = some v := by
  apply quote_induction
  · rw [quoteBody_nil, unquoteBody]
  · intro b0 rest ih
    rw [quoteBody_cons, unquoteBody_round, ih, Option.map_some', List.take_append_drop]

theorem unquote_Quote (T : Tables) (v : GoString) : unquote (strconv.Quote T v) = some v := by
  rw [Quote_eq]
  have h1 : (quoteBody T v ++ [0x22]).getLast? = some (0x22 : Byte) := by simp
  have h2 : unquote (0x22 :: (quoteBody T v ++ [0x22])) =
      unquoteBody (quoteBody T v ++ [0x22]).dropLast := by
    simp only [unquote, h1, and_self, if_true]
  rw [List.cons_append, h2, List.dropLast_concat]
  exact unquoteBody_quoteBody T v

/-! ## C2: the settings lines -/

/-- C2: after the version and its newline the output is exactly the lines of the
settings whose key starts with `vcs`, in the order of the list, each line being
the key verbatim, ` = `, the quoted value and a newline; the printed settings are
a sub-sequence of the list in which every such setting occurs as often as in the
list; and the value is recovered exactly from its quoted rendering, by a reader
that does not depend on the tables, so that different values never share a
rendering. -/
theorem vcs_lines_in_order (T : Tables) (bi : BuildInfo) :
    (main T (some bi)).2.stdout = bi.Main.Version ++ [0x0A] ++
      (bi.Settings.filter (fun s => startsWith vcs s.Key)).flatMap
        (fun s => s.Key ++ [0x20, 0x3D, 0x20] ++ strconv.Quote T s.Value ++ [0x0A]) ∧
    (bi.Settings.filter (fun s => startsWith vcs s.Key)).Sublist bi.Settings ∧
    (∀ s : BuildSetting, (bi.Settings.filter (fun s => startsWith vcs s.Key)).count s =
      if startsWith vcs s.Key = true then bi.Settings.count s else 0) ∧
    (∀ v : GoString, unquote (strconv.Quote T v) = some v) ∧
    (∀ v1 v2 : GoString, strconv.Quote T v1 = strconv.Quote T v2 → v1 = v2) := by
  refine ⟨?_, List.filter_sublist _, ?_, unquote_Quote T, ?_⟩
  · rw [main_some]
    rfl
  · intro s
    by_cases h : startsWith vcs s.Key = true
    · rw [if_pos h]
      exact List.count_filter h
    · rw [if_neg h]
      apply List.count_eq_zero_of_not_mem
      intro hm
      exact h (List.mem_filter.1 hm).2
  · intro v1 v2 h
    have h1 := unquote_Quote T v1
    rw [h, unquote_Quote T v2] at h1
    exact (Option.some.inj h1).symm

end TestGo
